import Mathlib

/-!
# Verification of the confession bot's content-lifecycle core

Shallow embedding of `src/bot.py`: the tri-state vote ledger with karma
propagation (`cb_handle_vote`, `cb_handle_comment_vote`), the moderation
workflow (`cb_admin_actions`, `publish_confession`, `next_conf_number`),
comment appending (`cb_comment_start`, `handle_comment_submission`), the
comment tree builder (`organize_comments_into_threads`) and the submission
cooldown (`cmd_confess_start`).

Python dicts are modelled as insertion-ordered association lists
(`List (Nat × Int)`); MongoDB collections as `List ConfDoc` with the
first-match semantics of `find_one` / `update_one` / `delete_one`;
timestamps as natural-number seconds.  Fields irrelevant to every claim
(`media`, `tags`, `created_at`, `approved_at`) are omitted from the
document structures; all fields the claims touch are kept.
-/

namespace ConfessionBot

/-! ## Python dict primitives (string-keyed maps, insertion ordered) -/

/-- First-match lookup, `d[k]` / backing for `d.get(k, default)`. -/
def lookupV : List (Nat × Int) → Nat → Option Int
  | [], _ => none
  | p :: rest, k => if p.1 = k then some p.2 else lookupV rest k

/-- `d.get(k, 0)` — the implicit `0` sentinel used by the vote maps
(`voters.get(str_user_id, 0)`, bot.py:2445/2574). -/
def getD0 (d : List (Nat × Int)) (k : Nat) : Int :=
  (lookupV d k).getD 0

/-- `d[k] = v`: update in place if the key exists, else insert at the end
(Python dict insertion order). -/
def setV : List (Nat × Int) → Nat → Int → List (Nat × Int)
  | [], k, v => [(k, v)]
  | p :: rest, k, v => if p.1 = k then (k, v) :: rest else p :: setV rest k v

/-- `del d[k]` (bot.py:2470/2599): removes the key's entry. -/
def delV : List (Nat × Int) → Nat → List (Nat × Int)
  | [], _ => []
  | p :: rest, k => if p.1 = k then rest else p :: delV rest k

/-- MongoDB `update_one(..., {"$inc": {...}}, upsert=True)` on a counter
document keyed by user id (the karma collection, bot.py:2503/2626). -/
def incV (m : List (Nat × Int)) (k : Nat) (x : Int) : List (Nat × Int) :=
  match lookupV m k with
  | some old => setV m k (old + x)
  | none => m ++ [(k, x)]

/-- `if karma_change != 0: karma_col.update_one(..., $inc ...)`
(bot.py:2502-2507 and 2625-2630). -/
def karmaApply (m : List (Nat × Int)) (a : Nat) (delta : Int) : List (Nat × Int) :=
  if delta = 0 then m else incV m a delta

/-- Number of map entries holding value `x`. -/
def countVal (d : List (Nat × Int)) (x : Int) : Nat :=
  (d.filter (fun p => p.2 = x)).length

/-- The keys of an association list. -/
def keysV (d : List (Nat × Int)) : List Nat := d.map Prod.fst

/-! ## Vote ledger (`cb_handle_vote` bot.py:2547-2630,
`cb_handle_comment_vote` bot.py:2410-2507)

Both handlers run the same five-way bookkeeping over the same four fields:
the target's author (`doc["user_id"]` / `comment["user_id"]`), its `likes`
and `dislikes` counters and its voters map (`voters` /
`comment_voters`).  `VoteTarget` embeds exactly those shared fields. -/

inductive VoteType where
  | like
  | dislike
deriving DecidableEq

/-- `vote_value = 1 if vote_type == "like" else -1` (bot.py:2447/2576). -/
def voteValue : VoteType → Int
  | .like => 1
  | .dislike => -1

structure VoteTarget where
  author : Nat
  likes : Int
  dislikes : Int
  voters : List (Nat × Int)
deriving DecidableEq

inductive VoteOutcome where
  | selfVote
  | cast
  | revoke
  | voteSwitch
deriving DecidableEq

structure VoteResult where
  outcome : VoteOutcome
  target : VoteTarget
  karma : List (Nat × Int)
deriving DecidableEq

/-- The vote-cast logic of bot.py:2568-2630 (confessions) and
bot.py:2439-2507 (comments): self-vote guard, then the tri-state branch on
`current_vote = voters.get(voter, 0)` — cast (`0`), revoke (same value),
or switch (opposite value) — updating the counters, the voters map and the
author's karma (`$inc` by `karma_change`, skipped when zero). -/
def castVote (t : VoteTarget) (karma : List (Nat × Int)) (voter : Nat) (vt : VoteType) :
    VoteResult :=
  if t.author = voter then ⟨.selfVote, t, karma⟩
  else
    let current := getD0 t.voters voter
    let v := voteValue vt
    if current = 0 then
      ⟨.cast,
       ⟨t.author,
        (if vt = .like then t.likes + 1 else t.likes),
        (if vt = .like then t.dislikes else t.dislikes + 1),
        setV t.voters voter v⟩,
       karmaApply karma t.author v⟩
    else if current = v then
      ⟨.revoke,
       ⟨t.author,
        (if vt = .like then t.likes - 1 else t.likes),
        (if vt = .like then t.dislikes else t.dislikes - 1),
        delV t.voters voter⟩,
       karmaApply karma t.author (-current)⟩
    else
      ⟨.voteSwitch,
       ⟨t.author,
        (if current = 1 then t.likes - 1 else t.likes) + (if vt = .like then 1 else 0),
        (if current = 1 then t.dislikes else t.dislikes - 1) + (if vt = .like then 0 else 1),
        setV t.voters voter v⟩,
       karmaApply karma t.author (v - current)⟩

/-- States of a vote target reachable from its creation state (counters `0`,
empty voters map, bot.py:2077-2080 and 2352-2357) by any sequence of vote
casts. -/
inductive ReachableTarget (a : Nat) : VoteTarget → Prop where
  | init : ReachableTarget a ⟨a, 0, 0, []⟩
  | step (t : VoteTarget) (karma : List (Nat × Int)) (voter : Nat) (vt : VoteType) :
      ReachableTarget a t → ReachableTarget a (castVote t karma voter vt).target

/-- Well-formedness of a vote target: every stored vote is `±1` and the
counters agree with the map. -/
def VWF (t : VoteTarget) : Prop :=
  (∀ p ∈ t.voters, p.2 = 1 ∨ p.2 = -1) ∧
  t.likes = (countVal t.voters 1 : Int) ∧
  t.dislikes = (countVal t.voters (-1) : Int)

/-! ## Document model and repository primitives -/

/-- An embedded comment (bot.py:2352-2374).  `created_at` is omitted;
`parent_index` is `-1` for a top-level comment, else the 0-based index of
the comment replied to. -/
structure CommentDoc where
  user_id : Nat
  parent_index : Int
  text : String
  likes : Int
  dislikes : Int
  comment_voters : List (Nat × Int)
deriving DecidableEq

/-- A confession document (bot.py:2067-2081).  `media`, `tags`,
`created_at` and `approved_at` are omitted; `number` is `none` until
assigned; `channel_message_id` is the published message reference
(`published_ref`). -/
structure ConfDoc where
  id : Nat
  user_id : Nat
  text : String
  approved : Bool
  number : Option Nat
  channel_message_id : Option Nat
  likes : Int
  dislikes : Int
  voters : List (Nat × Int)
  comments : List CommentDoc
deriving DecidableEq

/-- `conf_col.find_one({"_id": ObjectId(cid)})`: first match by id. -/
def findConf (store : List ConfDoc) (cid : Nat) : Option ConfDoc :=
  store.find? (fun d => d.id == cid)

/-- `conf_col.find_one({"_id": ObjectId(cid), "approved": True})`
(bot.py:2263, 2321). -/
def findApproved (store : List ConfDoc) (cid : Nat) : Option ConfDoc :=
  store.find? (fun d => d.id == cid && d.approved)

/-- `conf_col.update_one(filter, {"$set"/"$push": ...})`: rewrite the first
matching document. -/
def updateFirstP (store : List ConfDoc) (p : ConfDoc → Bool) (f : ConfDoc → ConfDoc) :
    List ConfDoc :=
  match store with
  | [] => []
  | d :: rest => if p d then f d :: rest else d :: updateFirstP rest p f

/-- `conf_col.delete_one({"_id": ObjectId(cid)})` (bot.py:3300). -/
def deleteFirst (store : List ConfDoc) (cid : Nat) : List ConfDoc :=
  match store with
  | [] => []
  | d :: rest => if d.id == cid then rest else d :: deleteFirst rest cid

/-! ## Sequential numbering and the moderation workflow -/

/-- `next_conf_number` (bot.py:2121-2134): find the highest `number` among
approved confessions that have one and add 1; start from 1 when there is
none (or when the highest is the falsy `0`). -/
def nextConfNumber (store : List ConfDoc) : Nat :=
  ((store.filterMap (fun d => if d.approved then d.number else none)).foldr max 0) + 1
/-- Python `x or y` on an optional number (`doc.get("number") or
next_conf_number()`, bot.py:2137): `None` and `0` are falsy. -/
def pyOrNat (o : Option Nat) (dflt : Nat) : Nat :=
  match o with
  | some n => if n = 0 then dflt else n
  | none => dflt

/-- One attempt of the channel send: success with a message id, a fatal
configuration error (`chat not found` / `bot is not an administrator`,
bot.py:2208-2211 — alert and abort), or any other exception (retry). -/
inductive SendOutcome where
  | sent (messageId : Nat)
  | fatalError
  | transientError
deriving DecidableEq

structure PubAttempt where
  channelMsg : Option Nat
  alerted : Bool
  delays : List Nat
deriving DecidableEq

/-- The retry loop of `publish_confession` (bot.py:2172-2222):
`for attempt in range(3)`, sleeping `2 ** (attempt + 1)` seconds between
attempts; a fatal error alerts the admins and aborts, and exhausting all
attempts alerts the admins (`POSTING FAILURE`). -/
def publishGo (send : Nat → SendOutcome) : Nat → Nat → PubAttempt
  | _, 0 => ⟨none, false, []⟩
  | attempt, remaining + 1 =>
    match send attempt with
    | .sent m => ⟨some m, false, []⟩
    | .fatalError => ⟨none, true, []⟩
    | .transientError =>
      match remaining with
      | 0 => ⟨none, true, []⟩
      | r + 1 =>
        let rest := publishGo send (attempt + 1) (r + 1)
        ⟨rest.channelMsg, rest.alerted, 2 ^ (attempt + 1) :: rest.delays⟩

structure PublishOut where
  store : List ConfDoc
  doc : ConfDoc
  success : Bool
  alerted : Bool
  delays : List Nat
deriving DecidableEq

/-- `publish_confession` (bot.py:2136-2224): compute
`final_number = doc.get("number") or next_conf_number()`, run the retry
loop, and only on success persist `approved=True`, `number` and
`channel_message_id` in one `$set` (bot.py:2183-2191); on failure nothing
is written. -/
def publish_confession (store : List ConfDoc) (doc : ConfDoc) (send : Nat → SendOutcome) :
    PublishOut :=
  let finalNumber := pyOrNat doc.number (nextConfNumber store)
  let att := publishGo send 0 3
  match att.channelMsg with
  | some m =>
    let upd : ConfDoc → ConfDoc := fun c =>
      { c with approved := true, number := some finalNumber, channel_message_id := some m }
    ⟨updateFirstP store (fun c => c.id == doc.id) upd, upd doc, true, att.alerted, att.delays⟩
  | none => ⟨store, doc, false, att.alerted, att.delays⟩

inductive ModOutcome where
  | alreadyProcessed
  | approvedPosted (n : Nat)
  | approvedPublishFailed
deriving DecidableEq

inductive RejectOutcome where
  | alreadyProcessed
  | rejected
deriving DecidableEq

/-- The `"ok"` branch of `cb_admin_actions` (bot.py:3266-3293): refuse when
the confession is missing or already approved (`AlreadyProcessed`),
otherwise run `publish_confession`. -/
def approveConf (store : List ConfDoc) (cid : Nat) (send : Nat → SendOutcome) :
    ModOutcome × List ConfDoc :=
  match findConf store cid with
  | none => (.alreadyProcessed, store)
  | some doc =>
    if doc.approved then (.alreadyProcessed, store)
    else
      let out := publish_confession store doc send
      if out.success then (.approvedPosted (out.doc.number.getD 0), out.store)
      else (.approvedPublishFailed, out.store)

/-- The `"no"` branch of `cb_admin_actions` (bot.py:3295-3306): the same
guard, then `delete_one`. -/
def rejectConf (store : List ConfDoc) (cid : Nat) : RejectOutcome × List ConfDoc :=
  match findConf store cid with
  | none => (.alreadyProcessed, store)
  | some doc =>
    if doc.approved then (.alreadyProcessed, store)
    else (.rejected, deleteFirst store cid)

/-- A moderator action on the repository. -/
inductive ModOp where
  | approveOp (cid : Nat) (send : Nat → SendOutcome)
  | rejectOp (cid : Nat)

/-- Apply one moderator action; also report the confession number assigned
by a successful approval, if any. -/
def applyOp (store : List ConfDoc) : ModOp → List ConfDoc × Option Nat
  | .approveOp cid send =>
    match approveConf store cid send with
    | (.approvedPosted n, s) => (s, some n)
    | (_, s) => (s, none)
  | .rejectOp cid => ((rejectConf store cid).2, none)

/-- Run a sequence of moderator actions, collecting the assigned numbers in
order of assignment. -/
def runOps (store : List ConfDoc) : List ModOp → List ConfDoc × List Nat
  | [] => (store, [])
  | op :: ops =>
    let r := applyOp store op
    let rest := runOps r.1 ops
    (rest.1, r.2.toList ++ rest.2)

/-- The auto-approve submission path (bot.py:2067-2090, with
`GLOBAL_AUTO_APPROVE` on): insert the document already `approved` with
`number = next_conf_number()`, then publish it. -/
def autoSubmitPublish (store : List ConfDoc) (newId author : Nat) (text : String)
    (send : Nat → SendOutcome) : PublishOut :=
  let doc : ConfDoc :=
    ⟨newId, author, text, true, some (nextConfNumber store), none, 0, 0, [], []⟩
  publish_confession (store ++ [doc]) doc send

/-- The numbers held by approved documents (the records `next_conf_number`
queries over). -/
def filterNums (store : List ConfDoc) : List Nat :=
  store.filterMap (fun d => if d.approved then d.number else none)

/-- The highest confession number currently held by an approved document. -/
def maxNum (store : List ConfDoc) : Nat :=
  (filterNums store).foldr max 0

/-- Repository well-formedness: unapproved confessions carry no number
(numbers are only written together with `approved=True`, bot.py:2184-2190),
and stored numbers are at least 1. -/
def WFStore (store : List ConfDoc) : Prop :=
  ∀ d ∈ store, (d.approved = false → d.number = none) ∧ 1 ≤ d.number.getD 1

/-! ## Comment flow -/

/-- `cb_comment_start` (bot.py:2244-2297): resolve the confession
(`approved: True`), store `parent_index` in the per-user draft state, and
for a reply whose `parent_index` is at least the comment count, fall back
to a top-level comment (`parent_index = -1`, bot.py:2280-2283).  Returns
the `parent_index` the draft state ends up with, or `none` when the
confession is missing or unapproved. -/
def cb_comment_start (store : List ConfDoc) (cid : Nat) (parentIndex : Int) : Option Int :=
  match findApproved store cid with
  | none => none
  | some d =>
    if parentIndex = -1 then some (-1)
    else if (d.comments.length : Int) ≤ parentIndex then some (-1)
    else some parentIndex

/-- Python `str.strip()`: remove whitespace from both ends
(structurally recursive over the character list). -/
def pyStrip (s : String) : String :=
  String.mk (((s.data.dropWhile Char.isWhitespace).reverse.dropWhile
    Char.isWhitespace).reverse)

inductive CommentSubmitResult where
  | emptyContent
  | notFound
  | indexError
  | tooLong
  | posted (index : Nat)
deriving DecidableEq

/-- The text path of `handle_comment_submission` (bot.py:2304-2404): refuse
empty content (bot.py:2316); refuse when the confession is missing or
unapproved (bot.py:2321-2325); for a reply (`parent_index != -1`) with
`parent_index < len(comments)`, the parent-notification code reads
`comments[parent_index]` (bot.py:2333-2336) — a Python index below
`-len(comments)` raises `IndexError` there, which the function-wide
`except Exception` (bot.py:2400) turns into a generic error message with
nothing appended; past that, refuse text over 4000 characters
(bot.py:2371-2373); otherwise `$push` the stripped text with the draft's
`parent_index` onto `comments` — no deliberate range check on
`parent_index` anywhere.  The new comment's index is the previous length
of the array. -/
def handle_comment_submission (store : List ConfDoc) (cid author : Nat) (parentIndex : Int)
    (text : String) : CommentSubmitResult × List ConfDoc :=
  if text = "" then (.emptyContent, store)
  else
    match findApproved store cid with
    | none => (.notFound, store)
    | some d =>
      if parentIndex ≠ -1 ∧ parentIndex < (d.comments.length : Int) ∧
          parentIndex < -(d.comments.length : Int) then
        (.indexError, store)
      else if 4000 < text.length then (.tooLong, store)
      else
        let c : CommentDoc := ⟨author, parentIndex, pyStrip text, 0, 0, []⟩
        (.posted d.comments.length,
         updateFirstP store (fun e => e.id == cid && e.approved)
           (fun e => { e with comments := e.comments ++ [c] }))

/-! ## Comment tree builder (`organize_comments_into_threads`,
bot.py:589-606) -/

/-- A rendered comment node: `{'comment': comment, 'replies': [...]}`,
together with the index it was grouped under. -/
inductive CTree where
  | node (index : Nat) (comment : CommentDoc) (replies : List CTree)

/-- `build_tree(parent_index)` (bot.py:595-604): iterate the enumerated
comment list; every comment whose `parent_index` equals the argument
becomes a node whose replies are built recursively from its own index.
The Python recursion carries no bound, so the embedding takes explicit
fuel; the source terminates exactly when the fuel is never exhausted. -/
def buildForest (cs : List CommentDoc) : Nat → Int → List CTree
  | 0, _ => []
  | fuel + 1, parentIndex =>
    cs.enum.filterMap fun ic =>
      if ic.2.parent_index = parentIndex then
        some (.node ic.1 ic.2 (buildForest cs fuel ic.1))
      else none

mutual

/-- Occurrences of input index `j` in a rendered node. -/
def countT : CTree → Nat → Nat
  | .node i _ kids, j => (if i = j then 1 else 0) + countF kids j

/-- Occurrences of input index `j` in a rendered forest. -/
def countF : List CTree → Nat → Nat
  | [], _ => 0
  | t :: ts, j => countT t j + countF ts j

end

/-- The spec's structural invariant on comment lists: each comment's
`parent_index` is `-1` or a strictly smaller index than its own. -/
def goodParents (cs : List CommentDoc) : Prop :=
  ∀ p ∈ cs.enum, p.2.parent_index = -1 ∨
    (0 ≤ p.2.parent_index ∧ p.2.parent_index < (p.1 : Int))

/-- The parent index recorded at position `j`. -/
def parentAt (cs : List CommentDoc) (j : Nat) : Option Int :=
  (cs.get? j).map CommentDoc.parent_index

/-- `Anc cs p j`: the call argument `p` occurs on comment `j`'s chain of
parent indices (so `j` is rendered inside the forest built for `p`). -/
inductive Anc (cs : List CommentDoc) : Int → Nat → Prop where
  | base (j : Nat) (p : Int) : parentAt cs j = some p → Anc cs p j
  | step (j i : Nat) (p : Int) :
      parentAt cs j = some (i : Int) → Anc cs p i → Anc cs p j

/-- Fuel needed below the call `build_tree(p)`. -/
def meas (cs : List CommentDoc) (p : Int) : Nat :=
  cs.length - (p + 1).toNat

/-! ## Submission cooldown (`cmd_confess_start`, bot.py:1933-1951) -/

/-- `CONFESSION_COOLDOWN = 60 * 5` (bot.py:45). -/
def CONFESSION_COOLDOWN : Nat := 60 * 5

/-- The rate-limit guard of `cmd_confess_start` (bot.py:1940-1945), with
`last = last_confession_time.get(user_id, 0)` set at the previous
submission (bot.py:2085): inside the window, refuse and report
`(remaining // 60) + 1` minutes to wait; otherwise allow. -/
def cmd_confess_rate_check (now last : Nat) : Option Nat :=
  if now - last < CONFESSION_COOLDOWN then
    some ((CONFESSION_COOLDOWN - (now - last)) / 60 + 1)
  else none

/-! ## Association-list lemmas -/

theorem lookupV_mem {d : List (Nat × Int)} {k : Nat} {w : Int}
    (h : lookupV d k = some w) : (k, w) ∈ d := by
  induction d with
  | nil => simp [lookupV] at h
  | cons q rest ih =>
    obtain ⟨a, b⟩ := q
    by_cases hk : a = k
    · subst hk
      simp [lookupV] at h
      subst h
      exact List.mem_cons_self _ _
    · simp only [lookupV, hk, ite_false] at h
      exact List.mem_cons_of_mem _ (ih h)

theorem lookupV_eq_none {d : List (Nat × Int)} {k : Nat}
    (h : lookupV d k = none) : ∀ p ∈ d, p.1 ≠ k := by
  induction d with
  | nil => simp
  | cons q rest ih =>
    by_cases hk : q.1 = k <;> simp only [lookupV, hk, if_pos, if_neg, ite_true, ite_false] at h
    · cases h
    · intro p hp
      rcases List.mem_cons.mp hp with rfl | hp'
      · exact hk
      · exact ih h p hp'

theorem lookupV_append_left {d e : List (Nat × Int)} {k : Nat}
    (h : lookupV d k = none) : lookupV (d ++ e) k = lookupV e k := by
  induction d with
  | nil => simp
  | cons q rest ih =>
    by_cases hk : q.1 = k <;> simp only [lookupV, hk, ite_true, ite_false] at h ⊢
    · cases h
    · exact ih h

theorem setV_eq_append {d : List (Nat × Int)} {k : Nat} {v : Int}
    (h : lookupV d k = none) : setV d k v = d ++ [(k, v)] := by
  induction d with
  | nil => simp [setV]
  | cons q rest ih =>
    by_cases hk : q.1 = k <;> simp only [lookupV, setV, hk, ite_true, ite_false] at h ⊢
    · cases h
    · simp [ih h]

theorem delV_append_self {d : List (Nat × Int)} {k : Nat} {v : Int}
    (h : lookupV d k = none) : delV (d ++ [(k, v)]) k = d := by
  induction d with
  | nil => simp [delV]
  | cons q rest ih =>
    by_cases hk : q.1 = k <;> simp only [lookupV, delV, List.cons_append, hk,
      ite_true, ite_false] at h ⊢
    · cases h
    · simp [ih h]

theorem lookupV_setV_self (d : List (Nat × Int)) (k : Nat) (v : Int) :
    lookupV (setV d k v) k = some v := by
  induction d with
  | nil => simp [setV, lookupV]
  | cons q rest ih =>
    by_cases hk : q.1 = k <;> simp [setV, lookupV, hk, ih]

theorem getD0_incV (m : List (Nat × Int)) (a : Nat) (x : Int) :
    getD0 (incV m a x) a = getD0 m a + x := by
  unfold incV
  cases hlk : lookupV m a with
  | none => simp [getD0, lookupV_append_left hlk, lookupV, hlk]
  | some old => simp [getD0, lookupV_setV_self, hlk]

theorem getD0_karmaApply (m : List (Nat × Int)) (a : Nat) (x : Int) :
    getD0 (karmaApply m a x) a = getD0 m a + x := by
  unfold karmaApply
  by_cases hx : x = 0
  · simp [hx]
  · simp [hx, getD0_incV]

theorem getD0_eq_zero_of_none {d : List (Nat × Int)} {k : Nat}
    (h : lookupV d k = none) : getD0 d k = 0 := by simp [getD0, h]

theorem lookupV_of_getD0_ne {d : List (Nat × Int)} {k : Nat}
    (h : getD0 d k ≠ 0) : lookupV d k = some (getD0 d k) := by
  cases hlk : lookupV d k with
  | none => exact absurd (getD0_eq_zero_of_none hlk) h
  | some w => simp [getD0, hlk]

theorem countVal_cons (p : Nat × Int) (d : List (Nat × Int)) (x : Int) :
    countVal (p :: d) x = (if p.2 = x then 1 else 0) + countVal d x := by
  by_cases h : p.2 = x <;> simp [countVal, List.filter_cons, h, Nat.add_comm]

theorem countVal_append (d e : List (Nat × Int)) (x : Int) :
    countVal (d ++ e) x = countVal d x + countVal e x := by
  simp [countVal, List.filter_append]

theorem mem_delV {d : List (Nat × Int)} {k : Nat} {p : Nat × Int}
    (h : p ∈ delV d k) : p ∈ d := by
  induction d with
  | nil => simpa [delV] using h
  | cons q rest ih =>
    by_cases hk : q.1 = k <;> simp only [delV, hk, ite_true, ite_false] at h
    · exact List.mem_cons_of_mem _ h
    · rcases List.mem_cons.mp h with rfl | h'
      · exact List.mem_cons_self _ _
      · exact List.mem_cons_of_mem _ (ih h')

theorem mem_setV {d : List (Nat × Int)} {k : Nat} {v : Int} {p : Nat × Int}
    (h : p ∈ setV d k v) : p ∈ d ∨ p = (k, v) := by
  induction d with
  | nil => simpa [setV] using h
  | cons q rest ih =>
    by_cases hk : q.1 = k <;> simp only [setV, hk, ite_true, ite_false] at h
    · rcases List.mem_cons.mp h with rfl | h'
      · exact Or.inr rfl
      · exact Or.inl (List.mem_cons_of_mem _ h')
    · rcases List.mem_cons.mp h with rfl | h'
      · exact Or.inl (List.mem_cons_self _ _)
      · rcases ih h' with h'' | h''
        · exact Or.inl (List.mem_cons_of_mem _ h'')
        · exact Or.inr h''

theorem countVal_delV {d : List (Nat × Int)} {k : Nat} {v : Int}
    (h : lookupV d k = some v) (x : Int) :
    countVal d x = countVal (delV d k) x + (if v = x then 1 else 0) := by
  induction d with
  | nil => simp [lookupV] at h
  | cons q rest ih =>
    by_cases hk : q.1 = k
    · simp only [lookupV, hk, ite_true, Option.some.injEq] at h
      subst h
      simp only [delV, hk, ite_true, countVal_cons]
      omega
    · simp only [lookupV, hk, ite_false] at h
      simp only [delV, hk, ite_false, countVal_cons, ih h]
      omega

theorem countVal_setV {d : List (Nat × Int)} {k : Nat} {c : Int}
    (h : lookupV d k = some c) (v x : Int) :
    countVal (setV d k v) x + (if c = x then 1 else 0)
      = countVal d x + (if v = x then 1 else 0) := by
  induction d with
  | nil => simp [lookupV] at h
  | cons q rest ih =>
    by_cases hk : q.1 = k
    · simp only [lookupV, hk, ite_true, Option.some.injEq] at h
      subst h
      simp only [setV, hk, ite_true, countVal_cons]
      omega
    · simp only [lookupV, hk, ite_false] at h
      simp only [setV, hk, ite_false, countVal_cons]
      have hih := ih h
      omega

/-! ## Vote ledger lemmas -/

theorem voteValue_ne_zero (vt : VoteType) : voteValue vt ≠ 0 := by
  cases vt <;> simp [voteValue]

theorem voteValue_opp {vt vt' : VoteType} (h : vt' ≠ vt) :
    voteValue vt' = -voteValue vt := by
  cases vt <;> cases vt' <;> simp_all [voteValue]

theorem castVote_cast (t : VoteTarget) (karma : List (Nat × Int)) (voter : Nat)
    (vt : VoteType) (hne : ¬t.author = voter) (h0 : getD0 t.voters voter = 0) :
    castVote t karma voter vt =
      ⟨.cast,
       ⟨t.author,
        (if vt = .like then t.likes + 1 else t.likes),
        (if vt = .like then t.dislikes else t.dislikes + 1),
        setV t.voters voter (voteValue vt)⟩,
       karmaApply karma t.author (voteValue vt)⟩ := by
  simp [castVote, hne, h0]

theorem castVote_revoke (t : VoteTarget) (karma : List (Nat × Int)) (voter : Nat)
    (vt : VoteType) (hne : ¬t.author = voter)
    (hv : getD0 t.voters voter = voteValue vt) :
    castVote t karma voter vt =
      ⟨.revoke,
       ⟨t.author,
        (if vt = .like then t.likes - 1 else t.likes),
        (if vt = .like then t.dislikes else t.dislikes - 1),
        delV t.voters voter⟩,
       karmaApply karma t.author (-voteValue vt)⟩ := by
  simp [castVote, hne, hv, voteValue_ne_zero]

theorem castVote_switch (t : VoteTarget) (karma : List (Nat × Int)) (voter : Nat)
    (vt : VoteType) (hne : ¬t.author = voter)
    (h0 : getD0 t.voters voter ≠ 0) (hv : getD0 t.voters voter ≠ voteValue vt) :
    castVote t karma voter vt =
      ⟨.voteSwitch,
       ⟨t.author,
        (if getD0 t.voters voter = 1 then t.likes - 1 else t.likes)
          + (if vt = .like then 1 else 0),
        (if getD0 t.voters voter = 1 then t.dislikes else t.dislikes - 1)
          + (if vt = .like then 0 else 1),
        setV t.voters voter (voteValue vt)⟩,
       karmaApply karma t.author (voteValue vt - getD0 t.voters voter)⟩ := by
  simp [castVote, hne, h0, hv]

theorem castVote_revoke2 (a : Nat) (L D : Int) (vs karma : List (Nat × Int))
    (voter : Nat) (vt : VoteType) (hne : ¬a = voter)
    (hv : getD0 vs voter = voteValue vt) :
    castVote ⟨a, L, D, vs⟩ karma voter vt =
      ⟨.revoke,
       ⟨a, (if vt = .like then L - 1 else L), (if vt = .like then D else D - 1),
        delV vs voter⟩,
       karmaApply karma a (-voteValue vt)⟩ :=
  castVote_revoke ⟨a, L, D, vs⟩ karma voter vt hne hv

theorem castVote_switch2 (a : Nat) (L D : Int) (vs karma : List (Nat × Int))
    (voter : Nat) (vt : VoteType) (hne : ¬a = voter)
    (h0 : getD0 vs voter ≠ 0) (hv : getD0 vs voter ≠ voteValue vt) :
    castVote ⟨a, L, D, vs⟩ karma voter vt =
      ⟨.voteSwitch,
       ⟨a,
        (if getD0 vs voter = 1 then L - 1 else L) + (if vt = .like then 1 else 0),
        (if getD0 vs voter = 1 then D else D - 1) + (if vt = .like then 0 else 1),
        setV vs voter (voteValue vt)⟩,
       karmaApply karma a (voteValue vt - getD0 vs voter)⟩ :=
  castVote_switch ⟨a, L, D, vs⟩ karma voter vt hne h0 hv

theorem countVal_singleton (k : Nat) (v x : Int) :
    countVal [(k, v)] x = if v = x then 1 else 0 := by
  by_cases h : v = x <;> simp [countVal, h]

theorem VWF_castVote (t : VoteTarget) (karma : List (Nat × Int)) (voter : Nat)
    (vt : VoteType) (h : VWF t) : VWF (castVote t karma voter vt).target := by
  obtain ⟨hvals, hl, hd⟩ := h
  by_cases hself : t.author = voter
  · simpa [castVote, hself] using ⟨hvals, hl, hd⟩
  · by_cases h0 : getD0 t.voters voter = 0
    · have hnone : lookupV t.voters voter = none := by
        cases hlk : lookupV t.voters voter with
        | none => rfl
        | some w =>
          have hw := hvals _ (lookupV_mem hlk)
          have hgw : getD0 t.voters voter = w := by simp [getD0, hlk]
          rcases hw with hw | hw <;> omega
      rw [castVote_cast t karma voter vt hself h0, setV_eq_append hnone]
      refine ⟨?_, ?_, ?_⟩
      · intro p hp
        rcases List.mem_append.mp hp with hp | hp
        · exact hvals p hp
        · rw [List.mem_singleton.mp hp]
          cases vt <;> simp [voteValue]
      · simp only [countVal_append, countVal_singleton]
        cases vt <;> simp [voteValue] <;> push_cast <;> omega
      · simp only [countVal_append, countVal_singleton]
        cases vt <;> simp [voteValue] <;> push_cast <;> omega
    · have hsome : lookupV t.voters voter = some (getD0 t.voters voter) :=
        lookupV_of_getD0_ne h0
      have hcv : getD0 t.voters voter = 1 ∨ getD0 t.voters voter = -1 :=
        hvals _ (lookupV_mem hsome)
      by_cases hv : getD0 t.voters voter = voteValue vt
      · rw [castVote_revoke t karma voter vt hself hv]
        refine ⟨?_, ?_, ?_⟩
        · intro p hp
          exact hvals p (mem_delV hp)
        · have hc := countVal_delV (hv ▸ hsome) 1
          cases vt <;> simp [voteValue] at hc ⊢ <;> omega
        · have hc := countVal_delV (hv ▸ hsome) (-1)
          cases vt <;> simp [voteValue] at hc ⊢ <;> omega
      · rw [castVote_switch t karma voter vt hself h0 hv]
        refine ⟨?_, ?_, ?_⟩
        · intro p hp
          rcases mem_setV hp with hp | hp
          · exact hvals p hp
          · rw [hp]
            cases vt <;> simp [voteValue]
        · have hc := countVal_setV hsome (voteValue vt) 1
          rcases hcv with hc1 | hc1 <;> cases vt <;>
            simp [voteValue, hc1] at hc hv ⊢ <;> omega
        · have hc := countVal_setV hsome (voteValue vt) (-1)
          rcases hcv with hc1 | hc1 <;> cases vt <;>
            simp [voteValue, hc1] at hc hv ⊢ <;> omega

theorem VWF_reachable {a : Nat} {t : VoteTarget} (h : ReachableTarget a t) : VWF t := by
  induction h with
  | init => exact ⟨by simp, by simp [countVal], by simp [countVal]⟩
  | step t karma voter vt _ ih => exact VWF_castVote _ _ _ _ ih

/-! ## Claim theorems: vote ledger -/

/-- C1: for any vote target and any voter `u` other than the author with no
prior vote on the target, casting the same vote twice (cast then revoke)
returns the like/dislike counters, the voters map and the author's karma
value to their pre-vote state; and casting one vote then the opposite one
makes the second step a switch that changes the net count
(`likes - dislikes`) and the author's karma by exactly `2·sign` of the new
vote — `±2`, never `±1`. -/
theorem vote_double_cast_reverts_and_switch_swings_two (t : VoteTarget)
    (karma : List (Nat × Int)) (u : Nat) (vt : VoteType)
    (hau : ¬t.author = u) (hnew : lookupV t.voters u = none) :
    ((castVote (castVote t karma u vt).target (castVote t karma u vt).karma u vt).target.likes
        = t.likes ∧
     (castVote (castVote t karma u vt).target (castVote t karma u vt).karma u vt).target.dislikes
        = t.dislikes ∧
     (castVote (castVote t karma u vt).target (castVote t karma u vt).karma u vt).target.voters
        = t.voters ∧
     getD0 (castVote (castVote t karma u vt).target (castVote t karma u vt).karma u vt).karma
        t.author = getD0 karma t.author) ∧
    (∀ vt' : VoteType, vt' ≠ vt →
      (castVote (castVote t karma u vt).target (castVote t karma u vt).karma u vt').outcome
          = .voteSwitch ∧
      ((castVote (castVote t karma u vt).target (castVote t karma u vt).karma u vt').target.likes
          - (castVote (castVote t karma u vt).target (castVote t karma u vt).karma u
              vt').target.dislikes)
        - ((castVote t karma u vt).target.likes - (castVote t karma u vt).target.dislikes)
          = 2 * voteValue vt' ∧
      getD0 (castVote (castVote t karma u vt).target (castVote t karma u vt).karma u vt').karma
          t.author
        - getD0 (castVote t karma u vt).karma t.author = 2 * voteValue vt') := by
  have h0 : getD0 t.voters u = 0 := getD0_eq_zero_of_none hnew
  have e1 : castVote t karma u vt =
      ⟨.cast,
       ⟨t.author,
        (if vt = .like then t.likes + 1 else t.likes),
        (if vt = .like then t.dislikes else t.dislikes + 1),
        t.voters ++ [(u, voteValue vt)]⟩,
       karmaApply karma t.author (voteValue vt)⟩ := by
    rw [castVote_cast t karma u vt hau h0, setV_eq_append hnew]
  have hget : getD0 (t.voters ++ [(u, voteValue vt)]) u = voteValue vt := by
    simp [getD0, lookupV_append_left hnew, lookupV]
  constructor
  · simp only [e1]
    rw [castVote_revoke2 _ _ _ _ _ u vt hau hget]
    refine ⟨?_, ?_, ?_, ?_⟩
    · cases vt <;> simp
    · cases vt <;> simp
    · exact delV_append_self hnew
    · simp only [getD0_karmaApply]
      ring
  · intro vt' hvt
    have hvv : voteValue vt' = -voteValue vt := voteValue_opp hvt
    have hne0 : getD0 (t.voters ++ [(u, voteValue vt)]) u ≠ 0 := by
      rw [hget]; exact voteValue_ne_zero vt
    have hnev : getD0 (t.voters ++ [(u, voteValue vt)]) u ≠ voteValue vt' := by
      rw [hget, hvv]
      cases vt <;> simp [voteValue]
    simp only [e1]
    rw [castVote_switch2 _ _ _ _ _ u vt' hau hne0 hnev]
    refine ⟨rfl, ?_, ?_⟩
    · rw [hget, hvv]
      cases vt <;> cases vt' <;> simp [voteValue] at hvt ⊢ <;> try omega
    · simp only [getD0_karmaApply]
      rw [hget, hvv]
      ring

theorem vote_double_cast_reverts_and_switch_swings_two_witness :
    (¬(⟨7, 0, 0, []⟩ : VoteTarget).author = 5) ∧
    lookupV (⟨7, 0, 0, []⟩ : VoteTarget).voters 5 = none ∧
    ((castVote (castVote ⟨7, 0, 0, []⟩ [] 5 .like).target
        (castVote ⟨7, 0, 0, []⟩ [] 5 .like).karma 5 .like).target.likes = 0 ∧
      getD0 (castVote (castVote ⟨7, 0, 0, []⟩ [] 5 .like).target
        (castVote ⟨7, 0, 0, []⟩ [] 5 .like).karma 5 .like).karma 7 = getD0 [] 7) := by
  refine ⟨by decide, by decide, ?_, ?_⟩
  · exact (vote_double_cast_reverts_and_switch_swings_two ⟨7, 0, 0, []⟩ [] 5 .like
      (by decide) (by decide)).1.1
  · exact (vote_double_cast_reverts_and_switch_swings_two ⟨7, 0, 0, []⟩ [] 5 .like
      (by decide) (by decide)).1.2.2.2

/-- C2: in every vote-target state reachable from the creation state by any
sequence of vote casts, the stored `likes` counter equals the number of
entries of the voters map holding `+1` and `dislikes` the number holding
`-1`. -/
theorem vote_counters_match_voters_map {a : Nat} {t : VoteTarget}
    (h : ReachableTarget a t) :
    t.likes = (countVal t.voters 1 : Int) ∧ t.dislikes = (countVal t.voters (-1) : Int) :=
  ⟨(VWF_reachable h).2.1, (VWF_reachable h).2.2⟩

theorem vote_counters_match_voters_map_witness :
    (castVote (castVote ⟨7, 0, 0, []⟩ [] 5 .like).target [] 6 .dislike).target.likes
      = (countVal
          (castVote (castVote ⟨7, 0, 0, []⟩ [] 5 .like).target [] 6 .dislike).target.voters
          1 : Int) ∧
    (castVote (castVote ⟨7, 0, 0, []⟩ [] 5 .like).target [] 6 .dislike).target.dislikes
      = (countVal
          (castVote (castVote ⟨7, 0, 0, []⟩ [] 5 .like).target [] 6 .dislike).target.voters
          (-1) : Int) :=
  vote_counters_match_voters_map
    (ReachableTarget.step _ _ _ _ (ReachableTarget.step _ _ _ _ ReachableTarget.init))

/-! ## Moderation lemmas -/

theorem find?_decomp {α : Type} {p : α → Bool} {l : List α} {d : α}
    (h : l.find? p = some d) :
    ∃ l1 l2, l = l1 ++ d :: l2 ∧ (∀ e ∈ l1, p e = false) ∧ p d = true := by
  induction l with
  | nil => simp at h
  | cons x rest ih =>
    by_cases hp : p x = true
    · rw [List.find?_cons_of_pos _ hp] at h
      cases h
      exact ⟨[], rest, by simp, by simp, hp⟩
    · rw [List.find?_cons_of_neg _ (by simpa using hp)] at h
      obtain ⟨l1, l2, heq, hl1, hd⟩ := ih h
      refine ⟨x :: l1, l2, by rw [heq]; rfl, ?_, hd⟩
      intro e he
      rcases List.mem_cons.mp he with rfl | he
      · simpa using hp
      · exact hl1 e he

theorem findConf_id {s : List ConfDoc} {cid : Nat} {d : ConfDoc}
    (h : findConf s cid = some d) : d.id = cid := by
  have := List.find?_some h
  simpa using this

theorem updateFirstP_decomp (l1 l2 : List ConfDoc) (d : ConfDoc) (p : ConfDoc → Bool)
    (f : ConfDoc → ConfDoc) (hl1 : ∀ e ∈ l1, p e = false) (hd : p d = true) :
    updateFirstP (l1 ++ d :: l2) p f = l1 ++ f d :: l2 := by
  induction l1 with
  | nil => simp [updateFirstP, hd]
  | cons x rest ih =>
    have hx := hl1 x (List.mem_cons_self _ _)
    simp only [List.cons_append, updateFirstP, hx, Bool.false_eq_true, if_false]
    exact congrArg (x :: ·) (ih fun e he => hl1 e (List.mem_cons_of_mem _ he))

theorem deleteFirst_decomp (l1 l2 : List ConfDoc) (d : ConfDoc) (cid : Nat)
    (hl1 : ∀ e ∈ l1, (e.id == cid) = false) (hd : (d.id == cid) = true) :
    deleteFirst (l1 ++ d :: l2) cid = l1 ++ l2 := by
  induction l1 with
  | nil => simp [deleteFirst, hd]
  | cons x rest ih =>
    have hx := hl1 x (List.mem_cons_self _ _)
    simp only [List.cons_append, deleteFirst, hx, Bool.false_eq_true, if_false]
    exact congrArg (x :: ·) (ih fun e he => hl1 e (List.mem_cons_of_mem _ he))

theorem foldr_max_append (A B : List Nat) :
    (A ++ B).foldr max 0 = max (A.foldr max 0) (B.foldr max 0) := by
  induction A with
  | nil => simp
  | cons a A ih =>
    simp only [List.cons_append, List.foldr_cons, ih]
    omega

theorem filterNums_append (A B : List ConfDoc) :
    filterNums (A ++ B) = filterNums A ++ filterNums B := by
  simp [filterNums]

theorem filterNums_cons_pending {d : ConfDoc} (h : d.approved = false) (B : List ConfDoc) :
    filterNums (d :: B) = filterNums B := by
  simp [filterNums, List.filterMap_cons, h]

theorem maxNum_middle_pending (s1 s2 : List ConfDoc) {d : ConfDoc}
    (h : d.approved = false) :
    maxNum (s1 ++ d :: s2) = max ((filterNums s1).foldr max 0) ((filterNums s2).foldr max 0) := by
  rw [maxNum, filterNums_append, filterNums_cons_pending h, foldr_max_append]

theorem WFStore_number_pos {s : List ConfDoc} (hwf : WFStore s) {d : ConfDoc}
    (hd : d ∈ s) {n : Nat} (hn : d.number = some n) : 1 ≤ n := by
  have := (hwf d hd).2
  rwa [hn] at this

/-- Characterisations of the `"ok"` admin action. -/
theorem approveConf_none {s : List ConfDoc} {cid : Nat} (send : Nat → SendOutcome)
    (hfind : findConf s cid = none) :
    approveConf s cid send = (.alreadyProcessed, s) := by
  simp [approveConf, hfind]

theorem approveConf_already {s : List ConfDoc} {cid : Nat} {doc : ConfDoc}
    (send : Nat → SendOutcome) (hfind : findConf s cid = some doc)
    (happ : doc.approved = true) :
    approveConf s cid send = (.alreadyProcessed, s) := by
  simp [approveConf, hfind, happ]

theorem approveConf_pubfail {s : List ConfDoc} {cid : Nat} {doc : ConfDoc}
    {send : Nat → SendOutcome} (hfind : findConf s cid = some doc)
    (happ : doc.approved = false) (hatt : (publishGo send 0 3).channelMsg = none) :
    approveConf s cid send = (.approvedPublishFailed, s) := by
  simp [approveConf, hfind, happ, publish_confession, hatt]

theorem approveConf_success {s : List ConfDoc} {cid : Nat} {doc : ConfDoc}
    {send : Nat → SendOutcome} {m : Nat} (hfind : findConf s cid = some doc)
    (happ : doc.approved = false) (hatt : (publishGo send 0 3).channelMsg = some m) :
    approveConf s cid send =
      (.approvedPosted (pyOrNat doc.number (nextConfNumber s)),
       updateFirstP s (fun c => c.id == doc.id)
         (fun c => { c with approved := true,
                            number := some (pyOrNat doc.number (nextConfNumber s)),
                            channel_message_id := some m })) := by
  simp [approveConf, hfind, happ, publish_confession, hatt]

theorem rejectConf_none {s : List ConfDoc} {cid : Nat}
    (hfind : findConf s cid = none) :
    rejectConf s cid = (.alreadyProcessed, s) := by
  simp [rejectConf, hfind]

theorem rejectConf_already {s : List ConfDoc} {cid : Nat} {doc : ConfDoc}
    (hfind : findConf s cid = some doc) (happ : doc.approved = true) :
    rejectConf s cid = (.alreadyProcessed, s) := by
  simp [rejectConf, hfind, happ]

theorem rejectConf_del {s : List ConfDoc} {cid : Nat} {doc : ConfDoc}
    (hfind : findConf s cid = some doc) (happ : doc.approved = false) :
    rejectConf s cid = (.rejected, deleteFirst s cid) := by
  simp [rejectConf, hfind, happ]

theorem filterNums_cons_approved {d : ConfDoc} {n : Nat} (ha : d.approved = true)
    (hn : d.number = some n) (B : List ConfDoc) :
    filterNums (d :: B) = n :: filterNums B := by
  simp [filterNums, List.filterMap_cons, ha, hn]

theorem applyOp_spec {s : List ConfDoc} (hwf : WFStore s) (op : ModOp) :
    WFStore (applyOp s op).1 ∧ maxNum s ≤ maxNum (applyOp s op).1 ∧
    ∀ n, (applyOp s op).2 = some n →
      n = maxNum s + 1 ∧ maxNum (applyOp s op).1 = maxNum s + 1 := by
  cases op with
  | approveOp cid send =>
    cases hfind : findConf s cid with
    | none =>
      rw [show applyOp s (.approveOp cid send) = (s, none) from by
        simp [applyOp, approveConf_none send hfind]]
      exact ⟨hwf, le_refl _, fun n hn => Option.noConfusion hn⟩
    | some doc =>
      cases happ : doc.approved with
      | true =>
        rw [show applyOp s (.approveOp cid send) = (s, none) from by
          simp [applyOp, approveConf_already send hfind happ]]
        exact ⟨hwf, le_refl _, fun n hn => Option.noConfusion hn⟩
      | false =>
        cases hatt : (publishGo send 0 3).channelMsg with
        | none =>
          rw [show applyOp s (.approveOp cid send) = (s, none) from by
            simp [applyOp, approveConf_pubfail hfind happ hatt]]
          exact ⟨hwf, le_refl _, fun n hn => Option.noConfusion hn⟩
        | some m =>
          have hdid : doc.id = cid := findConf_id hfind
          obtain ⟨s1, s2, hseq, hs1, hpd⟩ := find?_decomp hfind
          have hmem : doc ∈ s := by rw [hseq]; simp
          have hnum : doc.number = none := (hwf doc hmem).1 happ
          have hfin : pyOrNat doc.number (nextConfNumber s) = maxNum s + 1 := by
            rw [hnum]; rfl
          have hstore : updateFirstP s (fun c => c.id == doc.id) (fun c => { c with approved := true, number := some (pyOrNat doc.number (nextConfNumber s)), channel_message_id := some m }) = s1 ++ ({ doc with approved := true, number := some (pyOrNat doc.number (nextConfNumber s)), channel_message_id := some m }) :: s2 := by
            rw [hseq]
            refine updateFirstP_decomp s1 s2 doc _ _ ?_ (by simp)
            intro e he
            have := hs1 e he
            simpa [hdid] using this
          rw [show applyOp s (.approveOp cid send) = (s1 ++ ({ doc with approved := true, number := some (pyOrNat doc.number (nextConfNumber s)), channel_message_id := some m }) :: s2, some (pyOrNat doc.number (nextConfNumber s))) from by
            simp only [applyOp, approveConf_success hfind happ hatt, hstore]]
          have hms : maxNum s
              = max ((filterNums s1).foldr max 0) ((filterNums s2).foldr max 0) := by
            rw [hseq]; exact maxNum_middle_pending s1 s2 happ
          have hms2 : maxNum (s1 ++ ({ doc with approved := true, number := some (pyOrNat doc.number (nextConfNumber s)), channel_message_id := some m }) :: s2) = max ((filterNums s1).foldr max 0) (max (maxNum s + 1) ((filterNums s2).foldr max 0)) := by
            rw [maxNum, filterNums_append, filterNums_cons_approved rfl rfl s2,
              foldr_max_append, hfin]
            rfl
          refine ⟨?_, ?_, ?_⟩
          · intro e he
            rcases List.mem_append.mp he with he1 | he2
            · exact hwf e (by rw [hseq]; exact List.mem_append_left _ he1)
            · rcases List.mem_cons.mp he2 with rfl | he3
              · refine ⟨fun h => by simp at h, ?_⟩
                simp [hfin]
              · exact hwf e
                  (by rw [hseq]; exact List.mem_append_right _ (List.mem_cons_of_mem _ he3))
          · rw [hms2, hms]
            omega
          · intro n hn
            cases hn
            refine ⟨hfin, ?_⟩
            rw [hms2, hms]
            omega
  | rejectOp cid =>
    cases hfind : findConf s cid with
    | none =>
      rw [show applyOp s (.rejectOp cid) = (s, none) from by
        simp [applyOp, rejectConf_none hfind]]
      exact ⟨hwf, le_refl _, fun n hn => Option.noConfusion hn⟩
    | some doc =>
      cases happ : doc.approved with
      | true =>
        rw [show applyOp s (.rejectOp cid) = (s, none) from by
          simp [applyOp, rejectConf_already hfind happ]]
        exact ⟨hwf, le_refl _, fun n hn => Option.noConfusion hn⟩
      | false =>
        have hdid : doc.id = cid := findConf_id hfind
        obtain ⟨s1, s2, hseq, hs1, hpd⟩ := find?_decomp hfind
        have hdel : deleteFirst s cid = s1 ++ s2 := by
          rw [hseq]
          refine deleteFirst_decomp s1 s2 doc cid ?_ (by simp [hdid])
          intro e he
          simpa using hs1 e he
        rw [show applyOp s (.rejectOp cid) = (s1 ++ s2, none) from by
          simp only [applyOp, rejectConf_del hfind happ, hdel]]
        refine ⟨?_, ?_, fun n hn => Option.noConfusion hn⟩
        · intro e he
          rcases List.mem_append.mp he with he1 | he2
          · exact hwf e (by rw [hseq]; exact List.mem_append_left _ he1)
          · exact hwf e
              (by rw [hseq]; exact List.mem_append_right _ (List.mem_cons_of_mem _ he2))
        · have h1 : maxNum (s1 ++ s2)
              = max ((filterNums s1).foldr max 0) ((filterNums s2).foldr max 0) := by
            rw [maxNum, filterNums_append, foldr_max_append]
          have h2 : maxNum s
              = max ((filterNums s1).foldr max 0) ((filterNums s2).foldr max 0) := by
            rw [hseq]; exact maxNum_middle_pending s1 s2 happ
          rw [h1, h2]

theorem runOps_spec {s : List ConfDoc} (hwf : WFStore s) (ops : List ModOp) :
    WFStore (runOps s ops).1 ∧ maxNum s ≤ maxNum (runOps s ops).1 ∧
    (∀ n ∈ (runOps s ops).2, maxNum s < n) ∧
    List.Pairwise (· < ·) (runOps s ops).2 := by
  induction ops generalizing s with
  | nil => exact ⟨hwf, le_refl _, by simp [runOps], by simp [runOps]⟩
  | cons op ops ih =>
    obtain ⟨hw1, hle1, hsome⟩ := applyOp_spec hwf op
    obtain ⟨hw2, hle2, hmem2, hpw2⟩ := ih hw1
    refine ⟨hw2, le_trans hle1 hle2, ?_, ?_⟩
    · intro n hn
      simp only [runOps, List.mem_append] at hn
      rcases hn with hn | hn
      · cases hass : (applyOp s op).2 with
        | none => rw [hass] at hn; simp at hn
        | some n0 =>
          rw [hass] at hn
          simp at hn
          obtain ⟨h1, _⟩ := hsome n0 hass
          omega
      · have := hmem2 n hn
        omega
    · simp only [runOps]
      cases hass : (applyOp s op).2 with
      | none => simpa using hpw2
      | some n0 =>
        simp only [Option.toList_some, List.singleton_append]
        refine List.Pairwise.cons ?_ hpw2
        intro m hm
        obtain ⟨h1, h2⟩ := hsome n0 hass
        have := hmem2 m hm
        omega

theorem findConf_middle_ne (s1 : List ConfDoc) (x y : ConfDoc) (s2 : List ConfDoc)
    (cid : Nat) (hxy : x.id = y.id) (hx : ¬x.id = cid) :
    findConf (s1 ++ x :: s2) cid = findConf (s1 ++ y :: s2) cid := by
  induction s1 with
  | nil =>
    have h1 : ¬(x.id == cid) = true := by simp [hx]
    have h2 : ¬(y.id == cid) = true := by rw [← hxy]; simp [hx]
    simp only [List.nil_append, findConf]
    rw [@List.find?_cons_of_neg _ (fun d => d.id == cid) x s2 h1,
      @List.find?_cons_of_neg _ (fun d => d.id == cid) y s2 h2]
  | cons a s1 ih =>
    by_cases ha : (a.id == cid) = true
    · simp only [List.cons_append, findConf]
      rw [@List.find?_cons_of_pos _ (fun d => d.id == cid) a (s1 ++ x :: s2) ha,
        @List.find?_cons_of_pos _ (fun d => d.id == cid) a (s1 ++ y :: s2) ha]
    · simp only [List.cons_append, findConf]
      rw [@List.find?_cons_of_neg _ (fun d => d.id == cid) a (s1 ++ x :: s2) ha,
        @List.find?_cons_of_neg _ (fun d => d.id == cid) a (s1 ++ y :: s2) ha]
      exact ih

theorem findConf_remove_middle (s1 : List ConfDoc) (x : ConfDoc) (s2 : List ConfDoc)
    (cid : Nat) (hx : ¬x.id = cid) :
    findConf (s1 ++ x :: s2) cid = findConf (s1 ++ s2) cid := by
  induction s1 with
  | nil =>
    have h1 : ¬(x.id == cid) = true := by simp [hx]
    simp only [List.nil_append, findConf]
    rw [@List.find?_cons_of_neg _ (fun d => d.id == cid) x s2 h1]
  | cons a s1 ih =>
    by_cases ha : (a.id == cid) = true
    · simp only [List.cons_append, findConf]
      rw [@List.find?_cons_of_pos _ (fun d => d.id == cid) a (s1 ++ x :: s2) ha,
        @List.find?_cons_of_pos _ (fun d => d.id == cid) a (s1 ++ s2) ha]
    · simp only [List.cons_append, findConf]
      rw [@List.find?_cons_of_neg _ (fun d => d.id == cid) a (s1 ++ x :: s2) ha,
        @List.find?_cons_of_neg _ (fun d => d.id == cid) a (s1 ++ s2) ha]
      exact ih

/-- An approved document is never touched by any later moderator action:
both guards refuse it, and actions on other confessions leave it in place. -/
theorem findConf_applyOp_frozen {s : List ConfDoc} {cid : Nat} {d : ConfDoc}
    (hfind : findConf s cid = some d) (ha : d.approved = true) (op : ModOp) :
    findConf (applyOp s op).1 cid = some d := by
  cases op with
  | approveOp cid2 send =>
    cases hfind2 : findConf s cid2 with
    | none =>
      rw [show (applyOp s (.approveOp cid2 send)).1 = s from by
        simp [applyOp, approveConf_none send hfind2]]
      exact hfind
    | some doc2 =>
      cases happ2 : doc2.approved with
      | true =>
        rw [show (applyOp s (.approveOp cid2 send)).1 = s from by
          simp [applyOp, approveConf_already send hfind2 happ2]]
        exact hfind
      | false =>
        have hne : ¬doc2.id = cid := by
          intro h
          rw [findConf_id hfind2] at h
          subst h
          rw [hfind2] at hfind
          cases hfind
          rw [ha] at happ2
          cases happ2
        cases hatt : (publishGo send 0 3).channelMsg with
        | none =>
          rw [show (applyOp s (.approveOp cid2 send)).1 = s from by
            simp [applyOp, approveConf_pubfail hfind2 happ2 hatt]]
          exact hfind
        | some m =>
          obtain ⟨s1, s2, hseq, hs1, hpd⟩ := find?_decomp hfind2
          have hstore : (applyOp s (.approveOp cid2 send)).1 = s1 ++ ({ doc2 with approved := true, number := some (pyOrNat doc2.number (nextConfNumber s)), channel_message_id := some m }) :: s2 := by
            simp only [applyOp, approveConf_success hfind2 happ2 hatt]
            rw [hseq]
            refine updateFirstP_decomp s1 s2 doc2 _ _ ?_ (by simp)
            intro e he
            rw [findConf_id hfind2]
            exact hs1 e he
          rw [hstore,
            findConf_middle_ne s1 ({ doc2 with approved := true, number := some (pyOrNat doc2.number (nextConfNumber s)), channel_message_id := some m }) doc2 s2 cid rfl hne,
            ← hseq]
          exact hfind
  | rejectOp cid2 =>
    cases hfind2 : findConf s cid2 with
    | none =>
      rw [show (applyOp s (.rejectOp cid2)).1 = s from by
        simp [applyOp, rejectConf_none hfind2]]
      exact hfind
    | some doc2 =>
      cases happ2 : doc2.approved with
      | true =>
        rw [show (applyOp s (.rejectOp cid2)).1 = s from by
          simp [applyOp, rejectConf_already hfind2 happ2]]
        exact hfind
      | false =>
        have hne : ¬doc2.id = cid := by
          intro h
          rw [findConf_id hfind2] at h
          subst h
          rw [hfind2] at hfind
          cases hfind
          rw [ha] at happ2
          cases happ2
        obtain ⟨s1, s2, hseq, hs1, hpd⟩ := find?_decomp hfind2
        have hdel : (applyOp s (.rejectOp cid2)).1 = s1 ++ s2 := by
          simp only [applyOp, rejectConf_del hfind2 happ2]
          rw [hseq]
          exact deleteFirst_decomp s1 s2 doc2 cid2 (fun e he => hs1 e he)
            (by simp [findConf_id hfind2])
        rw [hdel, ← findConf_remove_middle s1 doc2 s2 cid hne, ← hseq]
        exact hfind

theorem findConf_runOps_frozen {s : List ConfDoc} {cid : Nat} {d : ConfDoc}
    (hfind : findConf s cid = some d) (ha : d.approved = true) (ops : List ModOp) :
    findConf (runOps s ops).1 cid = some d := by
  induction ops generalizing s with
  | nil => exact hfind
  | cons op ops ih => exact ih (findConf_applyOp_frozen hfind ha op)

/-- The retry loop when every attempt raises a retryable error: no message
id, an operator alert, and backoff sleeps of 2 then 4 seconds. -/
theorem publishGo_all_fail (send : Nat → SendOutcome)
    (hfail : ∀ a, a < 3 → send a = .transientError) :
    publishGo send 0 3 = ⟨none, true, [2, 4]⟩ := by
  have h0 := hfail 0 (by omega)
  have h1 := hfail 1 (by omega)
  have h2 := hfail 2 (by omega)
  simp [publishGo, h0, h1, h2]

/-! ## Claim theorems: moderation workflow -/

/-- C3 (counterexample): the next confession number is recomputed from the
surviving records, not read from a never-reused counter.  With records
numbered 1 and 2 present, approving a pending confession assigns 3; with
the record holding number 2 absent from the store, the very same approval
assigns 2 — a previously assigned number is handed out again. -/
theorem approve_number_recomputed_counterexample :
    (approveConf [⟨1, 10, "a", true, some 1, some 100, 0, 0, [], []⟩,
        ⟨2, 11, "b", true, some 2, some 101, 0, 0, [], []⟩,
        ⟨3, 12, "c", false, none, none, 0, 0, [], []⟩] 3
      (fun _ => .sent 55)).1 = .approvedPosted 3 ∧
    (approveConf [⟨1, 10, "a", true, some 1, some 100, 0, 0, [], []⟩,
        ⟨3, 12, "c", false, none, none, 0, 0, [], []⟩] 3
      (fun _ => .sent 55)).1 = .approvedPosted 2 := by
  decide

/-- C3 (amended): over any sequence of approve/reject operations on a
well-formed store, the numbers assigned by successful approvals are
strictly increasing and never repeat — because `reject` refuses to delete
approved (numbered) confessions, the `max+1` recomputation never revisits
an assigned number within these operations. -/
theorem approve_numbers_strictly_increasing (s : List ConfDoc) (ops : List ModOp)
    (hwf : WFStore s) :
    List.Pairwise (· < ·) (runOps s ops).2 ∧ (runOps s ops).2.Nodup := by
  have h := (runOps_spec hwf ops).2.2.2
  exact ⟨h, h.imp (fun hlt => Nat.ne_of_lt hlt)⟩

theorem approve_numbers_strictly_increasing_witness :
    WFStore [⟨1, 7, "aa", false, none, none, 0, 0, [], []⟩,
      ⟨2, 8, "bb", false, none, none, 0, 0, [], []⟩,
      ⟨3, 9, "cc", false, none, none, 0, 0, [], []⟩] ∧
    List.Pairwise (· < ·)
      (runOps [⟨1, 7, "aa", false, none, none, 0, 0, [], []⟩,
        ⟨2, 8, "bb", false, none, none, 0, 0, [], []⟩,
        ⟨3, 9, "cc", false, none, none, 0, 0, [], []⟩]
        [.approveOp 1 (fun _ => .sent 11), .rejectOp 2,
         .approveOp 3 (fun _ => .sent 12)]).2 := by
  refine ⟨by unfold WFStore; decide, ?_⟩
  exact (approve_numbers_strictly_increasing _ _ (by unfold WFStore; decide)).1

/-- C4: an approve or reject attempt on a confession that is not pending
(already approved, or absent because already rejected) fails with the
already-processed answer and leaves the repository unchanged; and an
approved confession's record — its status and its assigned number — is
never changed again by any later sequence of moderator actions. -/
theorem non_pending_moderation_refused_and_frozen (s : List ConfDoc) (cid : Nat)
    (hnp : ∀ d, findConf s cid = some d → d.approved = true) :
    (∀ send, approveConf s cid send = (.alreadyProcessed, s)) ∧
    rejectConf s cid = (.alreadyProcessed, s) ∧
    (∀ d, findConf s cid = some d → ∀ ops, findConf (runOps s ops).1 cid = some d) := by
  refine ⟨?_, ?_, ?_⟩
  · intro send
    cases hfind : findConf s cid with
    | none => exact approveConf_none send hfind
    | some d => exact approveConf_already send hfind (hnp d hfind)
  · cases hfind : findConf s cid with
    | none => exact rejectConf_none hfind
    | some d => exact rejectConf_already hfind (hnp d hfind)
  · intro d hfind ops
    exact findConf_runOps_frozen hfind (hnp d hfind) ops

theorem non_pending_moderation_refused_and_frozen_witness :
    approveConf [⟨1, 7, "tt", true, some 2, some 9, 0, 0, [], []⟩] 1 (fun _ => .sent 3)
        = (.alreadyProcessed, [⟨1, 7, "tt", true, some 2, some 9, 0, 0, [], []⟩]) ∧
    rejectConf [⟨1, 7, "tt", true, some 2, some 9, 0, 0, [], []⟩] 1
        = (.alreadyProcessed, [⟨1, 7, "tt", true, some 2, some 9, 0, 0, [], []⟩]) := by
  have h := non_pending_moderation_refused_and_frozen
    [⟨1, 7, "tt", true, some 2, some 9, 0, 0, [], []⟩] 1
    (fun d hd => by cases hd; rfl)
  exact ⟨h.1 _, h.2.1⟩

/-- C5 (counterexample): when an admin approves a pending confession and
every publish attempt fails, the stored record is NOT left `Approved`: the
failure path writes nothing, so the confession stays pending
(`approved = false`) — the claim's "status remains Approved" is false for
the moderator approval path. -/
theorem publish_failure_leaves_pending_counterexample :
    approveConf [⟨1, 7, "hello", false, none, none, 0, 0, [], []⟩] 1
        (fun _ => .transientError)
      = (.approvedPublishFailed, [⟨1, 7, "hello", false, none, none, 0, 0, [], []⟩]) ∧
    (findConf (approveConf [⟨1, 7, "hello", false, none, none, 0, 0, [], []⟩] 1
        (fun _ => .transientError)).2 1).map ConfDoc.approved = some false := by
  decide

/-- C5 (amended): when every publish attempt fails (with backoff 2s then
4s and a final operator alert), nothing is written to the repository.  A
manual approval therefore leaves the confession stored as pending (it can
be retried), not `Approved`; an auto-approved submission — already stored
`approved = true` with its number at insert time — keeps that state with
its `channel_message_id` (published reference) unset. -/
theorem publish_failure_alerts_and_writes_nothing (s : List ConfDoc) (cid : Nat)
    (d : ConfDoc) (send : Nat → SendOutcome) (hfind : findConf s cid = some d)
    (hpend : d.approved = false) (hfail : ∀ a, a < 3 → send a = .transientError) :
    approveConf s cid send = (.approvedPublishFailed, s) ∧
    (publish_confession s d send).alerted = true ∧
    (publish_confession s d send).delays = [2, 4] ∧
    ∀ store newId author text,
      (autoSubmitPublish store newId author text send).store
        = store ++ [⟨newId, author, text, true, some (nextConfNumber store),
            none, 0, 0, [], []⟩] ∧
      (autoSubmitPublish store newId author text send).alerted = true := by
  have hgo := publishGo_all_fail send hfail
  have hnone : (publishGo send 0 3).channelMsg = none := by rw [hgo]
  refine ⟨approveConf_pubfail hfind hpend hnone, ?_, ?_, ?_⟩
  · simp [publish_confession, hgo]
  · simp [publish_confession, hgo]
  · intro store newId author text
    exact ⟨by simp [autoSubmitPublish, publish_confession, hgo],
      by simp [autoSubmitPublish, publish_confession, hgo]⟩

theorem publish_failure_alerts_and_writes_nothing_witness :
    approveConf [⟨1, 7, "xx", false, none, none, 0, 0, [], []⟩] 1 (fun _ => .transientError)
        = (.approvedPublishFailed, [⟨1, 7, "xx", false, none, none, 0, 0, [], []⟩]) ∧
    (publish_confession [⟨1, 7, "xx", false, none, none, 0, 0, [], []⟩]
        ⟨1, 7, "xx", false, none, none, 0, 0, [], []⟩ (fun _ => .transientError)).alerted
        = true ∧
    (publish_confession [⟨1, 7, "xx", false, none, none, 0, 0, [], []⟩]
        ⟨1, 7, "xx", false, none, none, 0, 0, [], []⟩ (fun _ => .transientError)).delays
        = [2, 4] := by
  have h := publish_failure_alerts_and_writes_nothing
    [⟨1, 7, "xx", false, none, none, 0, 0, [], []⟩] 1
    ⟨1, 7, "xx", false, none, none, 0, 0, [], []⟩ (fun _ => .transientError)
    (by decide) (by decide) (fun a _ => rfl)
  exact ⟨h.1, h.2.1, h.2.2.1⟩

/-- C6: a vote cast by the target's own author always takes the self-vote
guard: the outcome is `selfVote` and the target's counters, voters map and
the whole karma store are returned unchanged. -/
theorem self_vote_always_rejected_and_state_unchanged (t : VoteTarget)
    (karma : List (Nat × Int)) (vt : VoteType) :
    castVote t karma t.author vt = ⟨.selfVote, t, karma⟩ := by
  simp [castVote]

/-! ## Comment flow lemmas and claims -/

theorem find?_append_cons_of (p : ConfDoc → Bool) (s1 s2 : List ConfDoc) (x : ConfDoc)
    (h1 : ∀ e ∈ s1, p e = false) (hx : p x = true) :
    List.find? p (s1 ++ x :: s2) = some x := by
  induction s1 with
  | nil => simp [List.find?_cons_of_pos _ hx]
  | cons a s1 ih =>
    have ha := h1 a (List.mem_cons_self _ _)
    rw [List.cons_append, List.find?_cons_of_neg _ (by simp [ha])]
    exact ih (fun e he => h1 e (List.mem_cons_of_mem _ he))

/-- The document found by a filter is still found, updated, after
`update_one` with the same filter, provided the update keeps the filter
satisfied. -/
theorem find?_updateFirstP_self {p : ConfDoc → Bool} {s : List ConfDoc} {d : ConfDoc}
    (f : ConfDoc → ConfDoc) (h : s.find? p = some d) (hf : p (f d) = true) :
    (updateFirstP s p f).find? p = some (f d) := by
  obtain ⟨s1, s2, hseq, hs1, hd⟩ := find?_decomp h
  rw [hseq, updateFirstP_decomp s1 s2 d p f hs1 hd]
  exact find?_append_cons_of p s1 s2 (f d) hs1 hf

/-- Specialisation to the comment-append update: the `$push` with filter
`{"_id": cid, "approved": True}` leaves the confession findable by the
same filter, with its comment list extended. -/
theorem findApproved_updateFirstP_self {s : List ConfDoc} {cid : Nat} {d : ConfDoc}
    (f : ConfDoc → ConfDoc) (h : findApproved s cid = some d)
    (hid : (f d).id = d.id) (hap : (f d).approved = d.approved) :
    findApproved (updateFirstP s (fun e => e.id == cid && e.approved) f) cid
      = some (f d) := by
  have h2 := List.find?_some h
  have hp : ((f d).id == cid && (f d).approved) = true := by
    rw [hid, hap]
    simpa using h2
  exact find?_updateFirstP_self f h hp

/-- C7 (counterexample): `parent_index` far outside `[-1, len(comments)-1]`
is NOT rejected with a validation error by the submission handler: on a
confession with no comments, a submission carrying `parent_index = 5` is
appended anyway (at index 0, with the out-of-range `parent_index` stored). -/
theorem append_comment_no_range_validation_counterexample :
    (handle_comment_submission [⟨3, 2, "c", true, some 1, none, 0, 0, [], []⟩]
        3 9 5 "hello").1 = .posted 0 ∧
    (handle_comment_submission [⟨3, 2, "c", true, some 1, none, 0, 0, [], []⟩]
        3 9 5 "hello").2
      = [⟨3, 2, "c", true, some 1, none, 0, 0, [], [⟨9, 5, "hello", 0, 0, []⟩]⟩] := by
  constructor
  · decide
  · decide

/-- C7 (amended): appending a comment fails (appending nothing) when the
confession is missing or not approved, both at the start step and at the
submission step; but an out-of-range `parent_index` is never rejected with
a validation error: the start step converts `parent_index ≥ len(comments)`
into a top-level comment (`-1`) and passes every other value (including
values below `-1`) through; the submission step appends the comment, with
its unvalidated `parent_index`, at the end of the list for every
`parent_index` that is `-1` or at least `-len(comments)` (so in particular
for every value at or above `len(comments)`), the new comment's index
being the previous length; only a `parent_index` below `-len(comments)`
(other than `-1`) appends nothing — not by validation, but because the
reply-notification lookup raises IndexError, swallowed as a generic
error. -/
theorem append_comment_guards_and_no_range_validation (store : List ConfDoc)
    (cid author : Nat) (pidx : Int) (text : String) :
    (findApproved store cid = none →
      cb_comment_start store cid pidx = none ∧
      (text ≠ "" → handle_comment_submission store cid author pidx text
        = (.notFound, store))) ∧
    (∀ d, findApproved store cid = some d →
      ((d.comments.length : Int) ≤ pidx → cb_comment_start store cid pidx = some (-1)) ∧
      (pidx ≠ -1 → pidx < (d.comments.length : Int) →
        cb_comment_start store cid pidx = some pidx) ∧
      (text ≠ "" → text.length ≤ 4000 →
        (pidx = -1 ∨ -(d.comments.length : Int) ≤ pidx) →
        (handle_comment_submission store cid author pidx text).1
            = .posted d.comments.length ∧
        findApproved (handle_comment_submission store cid author pidx text).2 cid
            = some { d with comments := d.comments ++ [⟨author, pidx, pyStrip text, 0, 0, []⟩] }) ∧
      (text ≠ "" → pidx ≠ -1 → pidx < -(d.comments.length : Int) →
        handle_comment_submission store cid author pidx text
          = (.indexError, store))) := by
  constructor
  · intro hnone
    refine ⟨by simp [cb_comment_start, hnone], ?_⟩
    intro hne
    simp [handle_comment_submission, hnone, hne]
  · intro d hfind
    refine ⟨?_, ?_, ?_, ?_⟩
    · intro hge
      have hne1 : pidx ≠ -1 := by
        intro h
        rw [h] at hge
        have := Int.ofNat_nonneg d.comments.length
        omega
      simp [cb_comment_start, hfind, hne1, hge]
    · intro hne1 hlt
      simp [cb_comment_start, hfind, hne1, Int.not_le.mpr hlt]
    · intro hne hlen hrange
      have hnl : ¬(4000 < text.length) := by omega
      have hres : handle_comment_submission store cid author pidx text
          = (.posted d.comments.length,
             updateFirstP store (fun e => e.id == cid && e.approved)
               (fun e => { e with comments := e.comments ++ [⟨author, pidx, pyStrip text, 0, 0, []⟩] })) := by
        rcases hrange with h1 | h1
        · subst h1
          simp [handle_comment_submission, hfind, hne, hnl]
        · have hno3 : ¬(pidx < -(d.comments.length : Int)) := by omega
          simp [handle_comment_submission, hfind, hne, hnl, hno3]
      rw [hres]
      exact ⟨rfl, findApproved_updateFirstP_self _ hfind rfl rfl⟩
    · intro hne hne1 hab
      have hmid : pidx < (d.comments.length : Int) := by omega
      simp [handle_comment_submission, hfind, hne, hne1, hab, hmid]

theorem append_comment_guards_and_no_range_validation_witness :
    findApproved [⟨3, 2, "c", true, some 1, none, 0, 0, [], []⟩] 3
        = some ⟨3, 2, "c", true, some 1, none, 0, 0, [], []⟩ ∧
    (handle_comment_submission [⟨3, 2, "c", true, some 1, none, 0, 0, [], []⟩]
        3 9 (-1) "ok").1 = .posted 0 ∧
    findApproved (handle_comment_submission [⟨3, 2, "c", true, some 1, none, 0, 0, [], []⟩]
        3 9 (-1) "ok").2 3
      = some ⟨3, 2, "c", true, some 1, none, 0, 0, [], [⟨9, -1, "ok", 0, 0, []⟩]⟩ := by
  have h := (append_comment_guards_and_no_range_validation
    [⟨3, 2, "c", true, some 1, none, 0, 0, [], []⟩] 3 9 (-1) "ok").2
    ⟨3, 2, "c", true, some 1, none, 0, 0, [], []⟩ rfl
  have h3 := h.2.2.1 (by decide) (by decide) (Or.inl rfl)
  exact ⟨rfl, h3.1, h3.2⟩

/-- C10 (counterexample): a valid short text is NOT always stored: with
`parent_index = -5` on a confession holding no comments, the
reply-notification lookup `comments[-5]` (bot.py:2336) raises IndexError,
swallowed by the function-wide handler (bot.py:2400), and nothing is
appended — although the text "hi" is non-empty and far under 4000
characters. -/
theorem valid_short_comment_not_stored_counterexample :
    ("hi" ≠ "" ∧ "hi".length ≤ 4000) ∧
    handle_comment_submission [⟨3, 2, "c", true, some 1, none, 0, 0, [], []⟩]
        3 9 (-5) "hi"
      = (.indexError, [⟨3, 2, "c", true, some 1, none, 0, 0, [], []⟩]) := by
  exact ⟨by decide, by decide⟩

/-- C10 (amended): a text comment longer than 4000 characters is rejected
and the confession document is left unchanged — through the length check
when `parent_index` is `-1` or at least `-len(comments)`, and through the
swallowed IndexError of the notification lookup otherwise; a non-empty
text of at most 4000 characters is stored stripped of surrounding
whitespace (`msg.text.strip()`), appended at the end, whenever
`parent_index` is `-1` or at least `-len(comments)`; for a `parent_index`
below `-len(comments)` (other than `-1`) the IndexError aborts the
submission and nothing is stored. -/
theorem long_comment_rejected_short_comment_stored_trimmed (store : List ConfDoc)
    (cid author : Nat) (pidx : Int) (text : String) (d : ConfDoc)
    (hfind : findApproved store cid = some d) :
    (4000 < text.length →
      (handle_comment_submission store cid author pidx text).2 = store ∧
      ((pidx = -1 ∨ -(d.comments.length : Int) ≤ pidx) →
        handle_comment_submission store cid author pidx text = (.tooLong, store))) ∧
    (text ≠ "" → text.length ≤ 4000 →
      (pidx = -1 ∨ -(d.comments.length : Int) ≤ pidx) →
      findApproved (handle_comment_submission store cid author pidx text).2 cid
        = some { d with comments := d.comments ++ [⟨author, pidx, pyStrip text, 0, 0, []⟩] }) ∧
    (text ≠ "" → pidx ≠ -1 → pidx < -(d.comments.length : Int) →
      handle_comment_submission store cid author pidx text = (.indexError, store)) := by
  refine ⟨?_, ?_, ?_⟩
  · intro hlong
    have hne : text ≠ "" := by
      intro h
      rw [h] at hlong
      simp [String.length] at hlong
    have htoolong : (pidx = -1 ∨ -(d.comments.length : Int) ≤ pidx) →
        handle_comment_submission store cid author pidx text = (.tooLong, store) := by
      intro hrange
      rcases hrange with h1 | h1
      · subst h1
        simp [handle_comment_submission, hfind, hne, hlong]
      · have hno3 : ¬(pidx < -(d.comments.length : Int)) := by omega
        simp [handle_comment_submission, hfind, hne, hlong, hno3]
    refine ⟨?_, htoolong⟩
    by_cases hc : pidx = -1 ∨ -(d.comments.length : Int) ≤ pidx
    · rw [htoolong hc]
    · push_neg at hc
      obtain ⟨h1, h2⟩ := hc
      have hab : pidx < -(d.comments.length : Int) := by omega
      have hmid : pidx < (d.comments.length : Int) := by omega
      simp [handle_comment_submission, hfind, hne, h1, hab, hmid]
  · intro hne hlen hrange
    have hnl : ¬(4000 < text.length) := by omega
    have hres : handle_comment_submission store cid author pidx text
        = (.posted d.comments.length,
           updateFirstP store (fun e => e.id == cid && e.approved)
             (fun e => { e with comments := e.comments ++ [⟨author, pidx, pyStrip text, 0, 0, []⟩] })) := by
      rcases hrange with h1 | h1
      · subst h1
        simp [handle_comment_submission, hfind, hne, hnl]
      · have hno3 : ¬(pidx < -(d.comments.length : Int)) := by omega
        simp [handle_comment_submission, hfind, hne, hnl, hno3]
    rw [hres]
    exact findApproved_updateFirstP_self _ hfind rfl rfl
  · intro hne hne1 hab
    have hmid : pidx < (d.comments.length : Int) := by omega
    simp [handle_comment_submission, hfind, hne, hne1, hab, hmid]

theorem long_comment_rejected_witness :
    4000 < (String.mk (List.replicate 4001 'a')).length ∧
    handle_comment_submission [⟨3, 2, "c", true, some 1, none, 0, 0, [], []⟩]
        3 9 (-1) (String.mk (List.replicate 4001 'a'))
      = (.tooLong, [⟨3, 2, "c", true, some 1, none, 0, 0, [], []⟩]) := by
  have hlen : 4000 < (String.mk (List.replicate 4001 'a')).length := by
    have h : (String.mk (List.replicate 4001 'a')).length = 4001 := by
      show (List.replicate 4001 'a').length = 4001
      rw [List.length_replicate]
    omega
  exact ⟨hlen,
    ((long_comment_rejected_short_comment_stored_trimmed
      [⟨3, 2, "c", true, some 1, none, 0, 0, [], []⟩] 3 9 (-1)
      (String.mk (List.replicate 4001 'a'))
      ⟨3, 2, "c", true, some 1, none, 0, 0, [], []⟩ rfl).1 hlen).2 (Or.inl rfl)⟩

/-! ## Comment tree builder lemmas -/

theorem enum_mem_get? {cs : List CommentDoc} {i : Nat} {c : CommentDoc}
    (h : (i, c) ∈ cs.enum) : cs.get? i = some c :=
  List.mem_enum_iff_get?.mp h

theorem enum_mem_of_get? {cs : List CommentDoc} {i : Nat} {c : CommentDoc}
    (h : cs.get? i = some c) : (i, c) ∈ cs.enum :=
  List.mem_enum_iff_get?.mpr h

theorem enum_mem_lt {cs : List CommentDoc} {i : Nat} {c : CommentDoc}
    (h : (i, c) ∈ cs.enum) : i < cs.length := by
  obtain ⟨hlt, -⟩ := List.get?_eq_some.mp (enum_mem_get? h)
  exact hlt

theorem parentAt_of_enum {cs : List CommentDoc} {i : Nat} {c : CommentDoc}
    (h : (i, c) ∈ cs.enum) : parentAt cs i = some c.parent_index := by
  rw [parentAt, enum_mem_get? h, Option.map_some']

theorem parentAt_lt {cs : List CommentDoc} {j : Nat} {q : Int}
    (h : parentAt cs j = some q) : j < cs.length := by
  rw [parentAt] at h
  cases hg : cs.get? j with
  | none => rw [hg] at h; cases h
  | some c =>
    obtain ⟨hlt, -⟩ := List.get?_eq_some.mp hg
    exact hlt

theorem good_parent_cases {cs : List CommentDoc} (h : goodParents cs) {a : Nat} {q : Int}
    (hpa : parentAt cs a = some q) : q = -1 ∨ (0 ≤ q ∧ q < (a : Int)) := by
  rw [parentAt] at hpa
  cases hg : cs.get? a with
  | none => rw [hg] at hpa; cases hpa
  | some c =>
    rw [hg, Option.map_some'] at hpa
    cases hpa
    exact h (a, c) (enum_mem_of_get? hg)

theorem parent_lt_nat {cs : List CommentDoc} (h : goodParents cs) {a k : Nat}
    (hpa : parentAt cs a = some ((k : Nat) : Int)) : k < a := by
  rcases good_parent_cases h hpa with hq | ⟨-, hq⟩
  · omega
  · exact_mod_cast hq

theorem child_meas {cs : List CommentDoc} (h : goodParents cs) {i : Nat} {c : CommentDoc}
    (hm : (i, c) ∈ cs.enum) {p : Int} (hp : c.parent_index = p) :
    meas cs i < meas cs p := by
  have hlt : i < cs.length := enum_mem_lt hm
  rcases h (i, c) hm with hc | ⟨hc0, hci⟩ <;> rw [hp] at *
  · rw [meas, meas]
    omega
  · rw [meas, meas]
    have h1 : (p + 1).toNat ≤ i := by omega
    have h2 : (0:Int) ≤ p + 1 := by omega
    omega

theorem anc_lt {cs : List CommentDoc} (h : goodParents cs) {p : Int} {j : Nat}
    (ha : Anc cs p j) : p < (j : Int) := by
  induction ha with
  | base j p hpa =>
    rcases good_parent_cases h hpa with hq | ⟨-, hq⟩
    · omega
    · exact hq
  | step j i p hpa _ ih =>
    have hij : (i : Int) < (j : Int) := by
      rcases good_parent_cases h hpa with hq | ⟨-, hq⟩
      · omega
      · exact hq
    omega

theorem anc_lt_nat {cs : List CommentDoc} (h : goodParents cs) {i j : Nat}
    (ha : Anc cs (i : Int) j) : i < j := by
  have := anc_lt h ha
  exact_mod_cast this

theorem anc_inv {cs : List CommentDoc} {q : Int} {j : Nat} (ha : Anc cs q j) :
    parentAt cs j = some q ∨ ∃ k : Nat, parentAt cs j = some (k : Int) ∧ Anc cs q k := by
  cases ha with
  | base j q hpa => exact Or.inl hpa
  | step j i q hpa hanc => exact Or.inr ⟨i, hpa, hanc⟩

theorem anc_up_aux {cs : List CommentDoc} {q : Int} {j : Nat} (ha : Anc cs q j) :
    ∀ i : Nat, q = (i : Int) → ∀ p : Int, parentAt cs i = some p → Anc cs p j := by
  induction ha with
  | base j q hpa =>
    intro i hq p hp
    subst hq
    exact Anc.step j i p hpa (Anc.base i p hp)
  | step j m q hpa hanc ih =>
    intro i hq p hp
    exact Anc.step j m p hpa (ih i hq p hp)

theorem anc_up {cs : List CommentDoc} {i : Nat} {j : Nat} {p : Int}
    (ha : Anc cs (i : Int) j) (hp : parentAt cs i = some p) : Anc cs p j :=
  anc_up_aux ha i rfl p hp

theorem anc_chain_aux {cs : List CommentDoc} (h : goodParents cs) {q : Int} {j : Nat}
    (h1 : Anc cs q j) :
    ∀ i1 : Nat, q = (i1 : Int) → ∀ i2 : Nat, Anc cs (i2 : Int) j →
      i1 = i2 ∨ Anc cs (i1 : Int) i2 ∨ Anc cs (i2 : Int) i1 := by
  induction h1 with
  | base j q hpa =>
    intro i1 hq i2 h2
    subst hq
    rcases anc_inv h2 with hb | ⟨k, hk, hanc⟩
    · rw [hpa] at hb
      injection hb with hb'
      left
      exact_mod_cast hb'
    · rw [hpa] at hk
      injection hk with hk'
      have hki : k = i1 := by exact_mod_cast hk'.symm
      subst hki
      exact Or.inr (Or.inr hanc)
  | step j m q hpa hanc ih =>
    intro i1 hq i2 h2
    rcases anc_inv h2 with hb | ⟨k, hk, hanc2⟩
    · rw [hpa] at hb
      injection hb with hb'
      have hmi : m = i2 := by exact_mod_cast hb'
      subst hmi
      exact Or.inr (Or.inl (hq ▸ hanc))
    · rw [hpa] at hk
      injection hk with hk'
      have hkm : k = m := by exact_mod_cast hk'.symm
      subst hkm
      exact ih i1 hq i2 hanc2

theorem anc_chain {cs : List CommentDoc} (h : goodParents cs) {i1 i2 j : Nat}
    (h1 : Anc cs (i1 : Int) j) (h2 : Anc cs (i2 : Int) j) :
    i1 = i2 ∨ Anc cs (i1 : Int) i2 ∨ Anc cs (i2 : Int) i1 :=
  anc_chain_aux h h1 i1 rfl i2 h2

/-- The forest call argument reached by `j` that sits directly under `p`:
every rendered occurrence of `j` under `p` goes through exactly one child
of `p`, and this is it. -/
theorem anc_exists_child {cs : List CommentDoc} {p : Int} {j : Nat}
    (ha : Anc cs p j) :
    ∃ i c, (i, c) ∈ cs.enum ∧ c.parent_index = p ∧ (i = j ∨ Anc cs (i : Int) j) := by
  induction ha with
  | base j q hpa =>
    rw [parentAt] at hpa
    cases hg : cs.get? j with
    | none => rw [hg] at hpa; cases hpa
    | some c =>
      rw [hg, Option.map_some'] at hpa
      injection hpa with hpa'
      exact ⟨j, c, enum_mem_of_get? hg, hpa', Or.inl rfl⟩
  | step j m q hpa hanc ih =>
    obtain ⟨i, c, hm, hp, hor⟩ := ih
    refine ⟨i, c, hm, hp, Or.inr ?_⟩
    rcases hor with rfl | hA
    · exact Anc.base j _ hpa
    · exact Anc.step j m _ hpa hA

theorem contributor_unique {cs : List CommentDoc} (h : goodParents cs) {p : Int}
    {j i i' : Nat} {c c' : CommentDoc}
    (hm : (i, c) ∈ cs.enum) (hm' : (i', c') ∈ cs.enum)
    (hp : c.parent_index = p) (hp' : c'.parent_index = p)
    (ho : i = j ∨ Anc cs (i : Int) j) (ho' : i' = j ∨ Anc cs (i' : Int) j) :
    i = i' := by
  have hpi : parentAt cs i = some p := by rw [parentAt_of_enum hm, hp]
  have hpi' : parentAt cs i' = some p := by rw [parentAt_of_enum hm', hp']
  rcases ho with he | hA <;> rcases ho' with he' | hA'
  · rw [he, he']
  · exfalso
    rw [he] at hpi
    rcases anc_inv hA' with hb | ⟨k, hk, hanc⟩
    · rw [hpi] at hb
      injection hb with hb'
      rw [hb'] at hpi'
      exact absurd (parent_lt_nat h hpi') (lt_irrefl i')
    · rw [hpi] at hk
      injection hk with hk'
      rw [hk'] at hpi'
      have hlt1 : k < i' := parent_lt_nat h hpi'
      have hlt2 : i' < k := anc_lt_nat h hanc
      omega
  · exfalso
    rw [he'] at hpi'
    rcases anc_inv hA with hb | ⟨k, hk, hanc⟩
    · rw [hpi'] at hb
      injection hb with hb'
      rw [hb'] at hpi
      exact absurd (parent_lt_nat h hpi) (lt_irrefl i)
    · rw [hpi'] at hk
      injection hk with hk'
      rw [hk'] at hpi
      have hlt1 : k < i := parent_lt_nat h hpi
      have hlt2 : i < k := anc_lt_nat h hanc
      omega
  · rcases anc_chain h hA hA' with he | hc | hc
    · exact he
    · exfalso
      rcases anc_inv hc with hb | ⟨k, hk, hanc⟩
      · rw [hpi'] at hb
        injection hb with hb'
        rw [hb'] at hpi
        exact absurd (parent_lt_nat h hpi) (lt_irrefl i)
      · rw [hpi'] at hk
        injection hk with hk'
        rw [hk'] at hpi
        have hlt1 : k < i := parent_lt_nat h hpi
        have hlt2 : i < k := anc_lt_nat h hanc
        omega
    · exfalso
      rcases anc_inv hc with hb | ⟨k, hk, hanc⟩
      · rw [hpi] at hb
        injection hb with hb'
        rw [hb'] at hpi'
        exact absurd (parent_lt_nat h hpi') (lt_irrefl i')
      · rw [hpi] at hk
        injection hk with hk'
        rw [hk'] at hpi'
        have hlt1 : k < i' := parent_lt_nat h hpi'
        have hlt2 : i' < k := anc_lt_nat h hanc
        omega

theorem anc_root {cs : List CommentDoc} (h : goodParents cs) :
    ∀ j, j < cs.length → Anc cs (-1) j := by
  intro j
  induction j using Nat.strong_induction_on with
  | _ j ih =>
    intro hj
    cases hg : cs.get? j with
    | none =>
      exfalso
      rw [List.get?_eq_none] at hg
      omega
    | some c =>
      have hpa : parentAt cs j = some c.parent_index := by
        rw [parentAt, hg, Option.map_some']
      have hgp : c.parent_index = -1 ∨
          (0 ≤ c.parent_index ∧ c.parent_index < (j : Int)) :=
        h (j, c) (enum_mem_of_get? hg)
      rcases hgp with hc | ⟨hc0, hcj⟩
      · exact Anc.base j (-1) (by rw [hpa, hc])
      · have hcast : c.parent_index = ((c.parent_index.toNat : Nat) : Int) :=
          (Int.toNat_of_nonneg hc0).symm
        have hklt : c.parent_index.toNat < j := by omega
        exact Anc.step j c.parent_index.toNat (-1)
          (by rw [hpa]; exact congrArg some hcast)
          (ih _ hklt (by omega))

theorem enum_nodup (cs : List CommentDoc) : cs.enum.Nodup := by
  have h : (cs.enum.map Prod.fst).Nodup := by
    rw [List.enum_map_fst]
    exact List.nodup_range _
  exact h.of_map

theorem enum_entry_unique {cs : List CommentDoc} {i : Nat} {c c' : CommentDoc}
    (hm : (i, c) ∈ cs.enum) (hm' : (i, c') ∈ cs.enum) : c = c' := by
  have h1 := enum_mem_get? hm
  have h2 := enum_mem_get? hm'
  rw [h1] at h2
  injection h2

/-- The builder's result is independent of the fuel once the fuel exceeds
the call's measure: the recursion bottoms out on its own, never by running
out of fuel — the Python original terminates. -/
theorem buildForest_stable {cs : List CommentDoc} (h : goodParents cs) :
    ∀ k (p : Int), meas cs p ≤ k → ∀ f1 f2, meas cs p < f1 → meas cs p < f2 →
      buildForest cs f1 p = buildForest cs f2 p := by
  intro k
  induction k with
  | zero =>
    intro p hp f1 f2 hf1 hf2
    obtain ⟨g1, rfl⟩ : ∃ g, f1 = g + 1 := ⟨f1 - 1, by omega⟩
    obtain ⟨g2, rfl⟩ : ∃ g, f2 = g + 1 := ⟨f2 - 1, by omega⟩
    simp only [buildForest]
    refine List.filterMap_congr ?_
    intro ic hic
    by_cases hp' : ic.2.parent_index = p
    · exact absurd (child_meas h (by simpa using hic) hp') (by omega)
    · simp [hp']
  | succ k ih =>
    intro p hp f1 f2 hf1 hf2
    obtain ⟨g1, rfl⟩ : ∃ g, f1 = g + 1 := ⟨f1 - 1, by omega⟩
    obtain ⟨g2, rfl⟩ : ∃ g, f2 = g + 1 := ⟨f2 - 1, by omega⟩
    simp only [buildForest]
    refine List.filterMap_congr ?_
    intro ic hic
    by_cases hp' : ic.2.parent_index = p
    · have hcm : meas cs ic.1 < meas cs p := child_meas h (by simpa using hic) hp'
      simp only [hp', if_pos]
      rw [ih (ic.1 : Int) (by omega) g1 g2 (by omega) (by omega)]
    · simp [hp']

/-- Unfolding one step of the builder's `filterMap` over the enumerated
comment list. -/
theorem filterMap_build_cons (cs : List CommentDoc) (g : Nat) (p : Int)
    (x : Nat × CommentDoc) (L : List (Nat × CommentDoc)) :
    (x :: L).filterMap (fun ic =>
      if ic.2.parent_index = p then
        some (CTree.node ic.1 ic.2 (buildForest cs g ic.1)) else none)
    = (if x.2.parent_index = p then
        [CTree.node x.1 x.2 (buildForest cs g x.1)] else [])
      ++ L.filterMap (fun ic =>
        if ic.2.parent_index = p then
          some (CTree.node ic.1 ic.2 (buildForest cs g ic.1)) else none) := by
  by_cases hxp : x.2.parent_index = p
  · simp [List.filterMap_cons, hxp]
  · simp [List.filterMap_cons, hxp]

/-- Counting occurrences of index `j` in the children rendered from a
portion `L` of the enumerated comment list: zero when `L` holds no child of
`p` leading to `j`, one when it holds such a child (unique by
`contributor_unique`). -/
theorem countF_filterMap_aux (cs : List CommentDoc) (h : goodParents cs) (p : Int)
    (j : Nat) (g : Nat)
    (hg : ∀ i c, (i, c) ∈ cs.enum → c.parent_index = p →
      (Anc cs (i : Int) j → countF (buildForest cs g i) j = 1) ∧
      (¬Anc cs (i : Int) j → countF (buildForest cs g i) j = 0)) :
    ∀ L : List (Nat × CommentDoc), L.Sublist cs.enum →
      ((∀ ic ∈ L, ¬(ic.2.parent_index = p ∧ (ic.1 = j ∨ Anc cs (ic.1 : Int) j))) →
        countF (L.filterMap fun ic =>
          if ic.2.parent_index = p then
            some (CTree.node ic.1 ic.2 (buildForest cs g ic.1)) else none) j = 0) ∧
      (∀ ic ∈ L, ic.2.parent_index = p → (ic.1 = j ∨ Anc cs (ic.1 : Int) j) →
        countF (L.filterMap fun ic =>
          if ic.2.parent_index = p then
            some (CTree.node ic.1 ic.2 (buildForest cs g ic.1)) else none) j = 1) := by
  intro L
  induction L with
  | nil =>
    intro _
    exact ⟨fun _ => rfl, fun ic hic => absurd hic (List.not_mem_nil ic)⟩
  | cons x L' ih =>
    intro hsub
    have hsub' : L'.Sublist cs.enum := (List.sublist_cons_self x L').trans hsub
    have hx : x ∈ cs.enum := hsub.subset (List.mem_cons_self x L')
    have hxL' : x ∉ L' := (List.nodup_cons.mp (hsub.nodup (enum_nodup cs))).1
    obtain ⟨ihz, iho⟩ := ih hsub'
    constructor
    · intro hnone
      by_cases hxp : x.2.parent_index = p
      · have hx0 := hnone x (List.mem_cons_self x L')
        push_neg at hx0
        obtain ⟨hxj, hxA⟩ := hx0 hxp
        have hb := (hg x.1 x.2 hx hxp).2 hxA
        rw [filterMap_build_cons cs g p x L', if_pos hxp, List.singleton_append]
        simp only [countF, countT]
        rw [if_neg hxj, hb, ihz (fun ic hic => hnone ic (List.mem_cons_of_mem x hic))]
      · rw [filterMap_build_cons cs g p x L', if_neg hxp, List.nil_append]
        exact ihz (fun ic hic => hnone ic (List.mem_cons_of_mem x hic))
    · intro ic hic hicp hicor
      rcases List.mem_cons.mp hic with rfl | hic'
      · have hnoc : ∀ ic' ∈ L', ¬(ic'.2.parent_index = p ∧
            (ic'.1 = j ∨ Anc cs (ic'.1 : Int) j)) := by
          intro ic' hic' hcon
          obtain ⟨hp', hor'⟩ := hcon
          have hmem' : ic' ∈ cs.enum := hsub'.subset hic'
          have hee : ic'.1 = ic.1 :=
            contributor_unique h hmem' hx hp' hicp hor' hicor
          have hc2 : ic'.2 = ic.2 := by
            refine enum_entry_unique ?_ hx
            rw [← hee]
            exact hmem'
          have : ic' = ic := Prod.ext hee hc2
          rw [this] at hic'
          exact hxL' hic'
        rw [filterMap_build_cons cs g p ic L', if_pos hicp, List.singleton_append]
        simp only [countF, countT]
        rcases hicor with hj | hA
        · have hAnc : ¬Anc cs (ic.1 : Int) j := by
            rw [hj]
            intro hA2
            exact absurd (anc_lt_nat h hA2) (lt_irrefl j)
          rw [if_pos hj, (hg ic.1 ic.2 hx hicp).2 hAnc, ihz hnoc]
        · have hxj : ¬(ic.1 = j) := fun hh =>
            absurd (anc_lt_nat h (hh ▸ hA)) (lt_irrefl j)
          rw [if_neg hxj, (hg ic.1 ic.2 hx hicp).1 hA, ihz hnoc]
      · have hxnc : ¬(x.2.parent_index = p ∧ (x.1 = j ∨ Anc cs (x.1 : Int) j)) := by
          intro hcon
          obtain ⟨hp', hor'⟩ := hcon
          have hmem' : ic ∈ cs.enum := hsub'.subset hic'
          have hee : x.1 = ic.1 :=
            contributor_unique h hx hmem' hp' hicp hor' hicor
          have hc2 : x.2 = ic.2 := by
            refine enum_entry_unique ?_ hmem'
            rw [← hee]
            exact hx
          have : x = ic := Prod.ext hee hc2
          rw [this] at hxL'
          exact hxL' hic'
        by_cases hxp : x.2.parent_index = p
        · have hxor : ¬(x.1 = j ∨ Anc cs (x.1 : Int) j) := fun hor' => hxnc ⟨hxp, hor'⟩
          push_neg at hxor
          rw [filterMap_build_cons cs g p x L', if_pos hxp, List.singleton_append]
          simp only [countF, countT]
          rw [if_neg hxor.1, (hg x.1 x.2 hx hxp).2 hxor.2, iho ic hic' hicp hicor]
        · rw [filterMap_build_cons cs g p x L', if_neg hxp, List.nil_append]
          exact iho ic hic' hicp hicor

/-- Occurrences of index `j` in the forest built for call argument `p`,
with sufficient fuel: exactly one when `p` lies on `j`'s parent chain,
none otherwise. -/
theorem countF_buildForest_main {cs : List CommentDoc} (h : goodParents cs) :
    ∀ k (p : Int), meas cs p ≤ k → ∀ fuel, meas cs p < fuel → ∀ j, j < cs.length →
      (Anc cs p j → countF (buildForest cs fuel p) j = 1) ∧
      (¬Anc cs p j → countF (buildForest cs fuel p) j = 0) := by
  intro k
  induction k with
  | zero =>
    intro p hp fuel hf j hj
    obtain ⟨g, rfl⟩ : ∃ g, fuel = g + 1 := ⟨fuel - 1, by omega⟩
    constructor
    · intro hA
      exfalso
      obtain ⟨i, c, hm, hpc, hor⟩ := anc_exists_child hA
      exact absurd (child_meas h hm hpc) (by omega)
    · intro _
      simp only [buildForest]
      have hallnone : ∀ ic ∈ cs.enum, (fun ic : Nat × CommentDoc =>
          if ic.2.parent_index = p then
            some (CTree.node ic.1 ic.2 (buildForest cs g ic.1)) else none) ic = none := by
        intro ic hic
        by_cases hp' : ic.2.parent_index = p
        · exact absurd (child_meas h (by simpa using hic) hp') (by omega)
        · simp [hp']
      rw [List.filterMap_eq_nil.mpr hallnone]
      rfl
  | succ k ih =>
    intro p hp fuel hf j hj
    obtain ⟨g, rfl⟩ : ∃ g, fuel = g + 1 := ⟨fuel - 1, by omega⟩
    have hg : ∀ i c, (i, c) ∈ cs.enum → c.parent_index = p →
        (Anc cs (i : Int) j → countF (buildForest cs g i) j = 1) ∧
        (¬Anc cs (i : Int) j → countF (buildForest cs g i) j = 0) := by
      intro i c hm hpc
      have hcm : meas cs i < meas cs p := child_meas h hm hpc
      exact ih (i : Int) (by omega) g (by omega) j hj
    obtain ⟨hz, ho⟩ := countF_filterMap_aux cs h p j g hg cs.enum (List.Sublist.refl _)
    constructor
    · intro hA
      obtain ⟨i, c, hm, hpc, hor⟩ := anc_exists_child hA
      simp only [buildForest]
      exact ho (i, c) hm hpc hor
    · intro hA
      simp only [buildForest]
      refine hz ?_
      intro ic hic hcon
      obtain ⟨hp', hor⟩ := hcon
      rcases hor with hj' | hA'
      · refine hA (Anc.base j p ?_)
        have hthis := parentAt_of_enum (show (ic.1, ic.2) ∈ cs.enum by simpa using hic)
        rw [hj', hp'] at hthis
        exact hthis
      · refine hA ?_
        have hpi : parentAt cs ic.1 = some p := by
          have hthis := parentAt_of_enum (show (ic.1, ic.2) ∈ cs.enum by simpa using hic)
          rw [hp'] at hthis
          exact hthis
        exact anc_up hA' hpi

/-- C8: on any comment list whose `parent_index` values are `-1` or a
strictly smaller index than the comment's own (the code's invariant), the
tree builder terminates — its result is already stable at fuel
`len + 1`, so the unbounded Python recursion never descends further — and
the rendered forest contains every comment of the input exactly once. -/
theorem tree_builder_terminates_and_renders_each_comment_once
    (cs : List CommentDoc) (h : goodParents cs) :
    (∀ fuel, cs.length + 1 ≤ fuel →
      buildForest cs fuel (-1) = buildForest cs (cs.length + 1) (-1)) ∧
    (∀ j, j < cs.length → countF (buildForest cs (cs.length + 1) (-1)) j = 1) := by
  have hmeas : meas cs (-1) = cs.length := by
    simp [meas]
  constructor
  · intro fuel hfuel
    exact buildForest_stable h cs.length (-1) (by omega) fuel (cs.length + 1)
      (by omega) (by omega)
  · intro j hj
    exact (countF_buildForest_main h cs.length (-1) (by omega) (cs.length + 1)
      (by omega) j hj).1 (anc_root h j hj)

theorem tree_builder_terminates_and_renders_each_comment_once_witness :
    goodParents [⟨1, -1, "a", 0, 0, []⟩, ⟨2, 0, "b", 0, 0, []⟩,
      ⟨3, -1, "c", 0, 0, []⟩, ⟨4, 1, "d", 0, 0, []⟩] ∧
    countF (buildForest [⟨1, -1, "a", 0, 0, []⟩, ⟨2, 0, "b", 0, 0, []⟩,
      ⟨3, -1, "c", 0, 0, []⟩, ⟨4, 1, "d", 0, 0, []⟩] 5 (-1)) 1 = 1 ∧
    countF (buildForest [⟨1, -1, "a", 0, 0, []⟩, ⟨2, 0, "b", 0, 0, []⟩,
      ⟨3, -1, "c", 0, 0, []⟩, ⟨4, 1, "d", 0, 0, []⟩] 5 (-1)) 3 = 1 := by
  refine ⟨by unfold goodParents; decide, ?_, ?_⟩
  · exact (tree_builder_terminates_and_renders_each_comment_once _
      (by unfold goodParents; decide)).2 1 (by decide)
  · exact (tree_builder_terminates_and_renders_each_comment_once _
      (by unfold goodParents; decide)).2 3 (by decide)

/-! ## Cooldown claims -/

/-- C9 (counterexample): a second submission 60 seconds after the first is
refused, but the reported wait is 5 minutes, not approximately 4: the
display rounding `(remaining // 60) + 1` overshoots by a full minute when
the remaining time is an exact number of minutes (here 240 s). -/
theorem cooldown_reports_five_minutes_counterexample :
    cmd_confess_rate_check 60 0 = some 5 ∧ cmd_confess_rate_check 60 0 ≠ some 4 := by
  decide

/-- C9 (amended): a submission within the 5-minute window after the
previous one is refused, with `(remaining // 60) + 1` minutes reported —
a figure whose span always covers the actual remaining time; at exactly
60 s after the previous submission the true remaining time is 240 s
(4 minutes) but the reported figure is 5 minutes.  At or past the window
the submission is allowed. -/
theorem cooldown_blocks_within_window (now last : Nat) (h1 : last ≤ now)
    (h2 : now - last < CONFESSION_COOLDOWN) :
    cmd_confess_rate_check now last
        = some ((CONFESSION_COOLDOWN - (now - last)) / 60 + 1) ∧
    CONFESSION_COOLDOWN - (now - last)
        ≤ ((CONFESSION_COOLDOWN - (now - last)) / 60 + 1) * 60 ∧
    (now - last = 60 →
      cmd_confess_rate_check now last = some 5 ∧
      CONFESSION_COOLDOWN - (now - last) = 4 * 60) ∧
    ∀ m l : Nat, CONFESSION_COOLDOWN ≤ m - l → cmd_confess_rate_check m l = none := by
  refine ⟨by simp [cmd_confess_rate_check, h2], ?_, ?_, ?_⟩
  · omega
  · intro h60
    constructor
    · have hblocked : cmd_confess_rate_check now last
          = some ((CONFESSION_COOLDOWN - (now - last)) / 60 + 1) := by
        simp [cmd_confess_rate_check, h2]
      rw [hblocked, h60]
      rfl
    · rw [h60]
      rfl
  · intro m l hml
    simp [cmd_confess_rate_check, Nat.not_lt.mpr hml]

theorem cooldown_blocks_within_window_witness :
    (0 : Nat) ≤ 60 ∧ 60 - 0 < CONFESSION_COOLDOWN ∧
    cmd_confess_rate_check 60 0 = some ((CONFESSION_COOLDOWN - (60 - 0)) / 60 + 1) := by
  exact ⟨by decide, by decide,
    (cooldown_blocks_within_window 60 0 (by decide) (by decide)).1⟩

end ConfessionBot
